import Mathlib

/-!
# ISO 8601 durations: `ParseDuration` and `FormatDuration`

A shallow embedding of `duration.go` (package `iso8601`) together with the
properties of the parser and the formatter that are checked against it.

Conventions of the embedding

* A Go `string` is a Lean `String`; the matchers work on its list of
  characters.  The two patterns only mention ASCII characters, so every other
  character is simply a character that matches nothing.
* Go `int` is the 64-bit `int` of the usual platforms (`intSize = 64`).
* `time.Duration` is an `int64` count of nanoseconds: it is an `Int` here and
  every arithmetic operation of the source on it is followed by `wrap64`.
* `float64` values are exact rationals; every float operation of the source is
  followed by `rnd64`, rounding to the nearest double, ties to even.
* The three results of `ParseDuration` are the three fields of `ParseResult`;
  a `nil` pointer or a `nil` error is `none`.
-/

namespace Iso8601

/-! ## Data model -/

/-- Error values that `ParseDuration` can return: the two package-level errors
and the two `*strconv.NumError` kinds produced by `strconv.Atoi`, which
carry the offending text. -/
inductive Error where
  | ErrBadFormat : Error
  | ErrNoMonth : Error
  | ErrSyntax (num : List Char) : Error
  | ErrRange (num : List Char) : Error
  deriving DecidableEq, Repr

/-- The record `type Duration struct` of the source. -/
structure Duration where
  Years : Int
  Months : Int
  Weeks : Int
  Days : Int
  Hours : Int
  Minutes : Int
  Seconds : Int
  deriving DecidableEq, Repr

/-- The three values returned by `ParseDuration`, in the order of the source:
the elapsed time in nanoseconds, the record pointer and the error. -/
structure ParseResult where
  elapsed : Int
  record : Option Duration
  err : Option Error
  deriving DecidableEq, Repr

/-! ## Machine integers and `time` constants -/

/-- Width of Go's `int`. -/
def intSize : Nat := 64

/-- Largest value of Go's `int`. -/
def maxInt : Nat := 2 ^ (intSize - 1) - 1

/-- Two's complement reduction of an integer to the `int64` range. -/
def wrap64 (x : Int) : Int := (x + 2 ^ 63) % 2 ^ 64 - 2 ^ 63

/-- Largest value of `time.Duration`. -/
def maxDuration : Int := 2 ^ 63 - 1

/-- The constant `time.Second`, in nanoseconds. -/
def Second : Int := 1000000000

/-- The constant `time.Minute`. -/
def Minute : Int := 60 * Second

/-- The constant `time.Hour`. -/
def Hour : Int := 60 * Minute

/-- The local `day := time.Hour * 24` of `ParseDuration`. -/
def day : Int := wrap64 (Hour * 24)

/-- The local `week := day * 7` of `ParseDuration`. -/
def weekDur : Int := wrap64 (day * 7)

/-- The local `year := day * 365` of `ParseDuration`. -/
def year : Int := wrap64 (day * 365)

/-! ## `strconv.Atoi` -/

/-- Value of a run of decimal digits, most significant digit first. -/
def digitsVal (s : List Char) : Nat :=
  s.foldl (fun n ch => n * 10 + (ch.toNat - 48)) 0

/-- The library function `strconv.Atoi` in base 10 for a 64-bit `int`: an
optional sign, then at least one ASCII digit and nothing else (otherwise a
syntax error); a value outside the `int` range is a range error. -/
def Atoi (s : List Char) : Except Error Int :=
  match s with
  | [] => .error (.ErrSyntax s)
  | c :: r =>
    let body := if c = '-' ∨ c = '+' then r else s
    if body = [] ∨ body.all Char.isDigit = false then .error (.ErrSyntax s)
    else if c = '-' then
      if digitsVal body ≤ maxInt + 1 then .ok (-(digitsVal body : Int))
      else .error (.ErrRange s)
    else
      if digitsVal body ≤ maxInt then .ok (digitsVal body : Int)
      else .error (.ErrRange s)

/-! ## The two regular expressions

Go's `regexp` finds the leftmost match and, among the matches starting there,
the one a backtracking matcher would find first (greedy operators prefer to
match).  Neither pattern is anchored.

In both patterns every `\d+` is followed by one fixed letter.  A greedy `\d+`
first takes the maximal run of digits; giving back digits cannot help, because
the character after a shorter run is a digit and not the letter.  So
`(\d+)c` matches at a position exactly when the maximal digit run there is
non-empty and followed by `c`.
-/

/-- Match `(\d+)c` at the head of `s`: the captured digits and the remaining
input, or `none`. -/
def digitsThen (c : Char) (s : List Char) : Option (List Char × List Char) :=
  match s.takeWhile Char.isDigit, s.dropWhile Char.isDigit with
  | d :: ds, c' :: rest => if c' = c then some (d :: ds, rest) else none
  | _, _ => none

/-- Outcome of an optional group `((?P<name>\d+)c)?` at the head of the input:
the text of the outer group, the text of the named inner group (both empty when
the group does not take part in the match) and the remaining input. -/
structure Group where
  outer : List Char
  inner : List Char
  rest : List Char
  deriving DecidableEq, Repr

/-- Match `((?P<name>\d+)c)?` at the head of `s`.  The `?` is greedy and the
rest of the pattern `full` can always match (every later group is optional), so
the group is taken whenever it can be. -/
def optGroup (c : Char) (s : List Char) : Group :=
  match digitsThen c s with
  | some (ds, rest) => ⟨ds ++ [c], ds, rest⟩
  | none => ⟨[], [], s⟩

/-- Submatches of `full` for a match whose `P` has just been read; `s` is the
input after that `P`.  The list has the 14 entries of
`full.FindStringSubmatch`: the whole match and the 13 groups in order of their
opening parenthesis. -/
def fullHere (s : List Char) : List (List Char) :=
  let y := optGroup 'Y' s
  let mo := optGroup 'M' y.rest
  let d := optGroup 'D' mo.rest
  match d.rest with
  | 'T' :: s4 =>
    let h := optGroup 'H' s4
    let mi := optGroup 'M' h.rest
    let sec := optGroup 'S' mi.rest
    let t := 'T' :: (h.outer ++ mi.outer ++ sec.outer)
    [ 'P' :: (y.outer ++ mo.outer ++ d.outer ++ t),
      y.outer, y.inner, mo.outer, mo.inner, d.outer, d.inner,
      t, h.outer, h.inner, mi.outer, mi.inner, sec.outer, sec.inner ]
  | _ =>
    [ 'P' :: (y.outer ++ mo.outer ++ d.outer),
      y.outer, y.inner, mo.outer, mo.inner, d.outer, d.inner,
      [], [], [], [], [], [], [] ]

/-- Submatches of `week` for a match attempt whose `P` has just been read. -/
def weekHere (s : List Char) : Option (List (List Char)) :=
  match digitsThen 'W' s with
  | some (ds, _) => some [ 'P' :: (ds ++ ['W']), ds ++ ['W'], ds ]
  | none => none

/-- The result of `full.FindStringSubmatch(value)`: the match starts at the
first `P` of the input, where it always succeeds; `none` is Go's `nil`. -/
def full.FindStringSubmatch : List Char → Option (List (List Char))
  | [] => none
  | c :: s => if c = 'P' then some (fullHere s) else full.FindStringSubmatch s

/-- The result of `week.FindStringSubmatch(value)`: the match starts at the
first `P` that is followed by digits and a `W`. -/
def week.FindStringSubmatch : List Char → Option (List (List Char))
  | [] => none
  | c :: s =>
    if c = 'P' then
      match weekHere s with
      | some m => some m
      | none => week.FindStringSubmatch s
    else week.FindStringSubmatch s

/-- The result of `full.MatchString(value)`: whether the input contains a match. -/
def full.MatchString (value : List Char) : Bool :=
  (full.FindStringSubmatch value).isSome

/-- The result of `week.MatchString(value)`: whether the input contains a match. -/
def week.MatchString (value : List Char) : Bool :=
  (week.FindStringSubmatch value).isSome

/-- The value of `full.SubexpNames()`: entry `i` is the name of group `i`, empty
for the whole match and for unnamed groups. -/
def full.SubexpNames : List String :=
  ["", "", "year", "", "month", "", "day", "", "", "hour", "", "minute", "", "second"]

/-- The value of `week.SubexpNames()`. -/
def week.SubexpNames : List String := ["", "", "week"]

/-! ## `ParseDuration` -/

/-- The `for i, name := range regex.SubexpNames()` loop of `ParseDuration`,
from index `i` on: `names` are the names still to visit, `m` the entries
`match[i:]`, `result` and `d` the loop variables.  The value is what
`ParseDuration` returns. -/
def parseLoop (i : Nat) (names : List String) (m : List (List Char))
    (result : Duration) (d : Int) : ParseResult :=
  match names, m with
  | name :: names', part :: m' =>
    if i = 0 ∨ name = "" ∨ part = [] then parseLoop (i + 1) names' m' result d
    else
      match Atoi part with
      | .error err => ⟨0, none, some err⟩
      | .ok value =>
        if name = "year" then
          parseLoop (i + 1) names' m' { result with Years := value }
            (wrap64 (d + wrap64 (year * value)))
        else if name = "month" then
          if value ≠ 0 then ⟨0, none, some .ErrNoMonth⟩
          else parseLoop (i + 1) names' m' { result with Months := value } d
        else if name = "week" then
          parseLoop (i + 1) names' m' { result with Weeks := value }
            (wrap64 (d + wrap64 (weekDur * value)))
        else if name = "day" then
          parseLoop (i + 1) names' m' { result with Days := value }
            (wrap64 (d + wrap64 (day * value)))
        else if name = "hour" then
          parseLoop (i + 1) names' m' { result with Hours := value }
            (wrap64 (d + wrap64 (Hour * value)))
        else if name = "minute" then
          parseLoop (i + 1) names' m' { result with Minutes := value }
            (wrap64 (d + wrap64 (Minute * value)))
        else if name = "second" then
          parseLoop (i + 1) names' m' { result with Seconds := value }
            (wrap64 (d + wrap64 (Second * value)))
        else parseLoop (i + 1) names' m' result d
  | _, _ => ⟨d, some result, none⟩

/-- The function `ParseDuration` of the source.  `week.MatchString` and
`full.MatchString` are tested in this order; after a successful test
`FindStringSubmatch` of the same pattern returns the submatches, so the two
`none` branches below cannot be taken. -/
def ParseDuration (value : String) : ParseResult :=
  let result : Duration := ⟨0, 0, 0, 0, 0, 0, 0⟩
  if week.MatchString value.data then
    match week.FindStringSubmatch value.data with
    | some m => parseLoop 0 week.SubexpNames m result 0
    | none => ⟨0, none, some .ErrBadFormat⟩
  else if full.MatchString value.data then
    match full.FindStringSubmatch value.data with
    | some m => parseLoop 0 full.SubexpNames m result 0
    | none => ⟨0, none, some .ErrBadFormat⟩
  else ⟨0, none, some .ErrBadFormat⟩

/-! ## `float64` arithmetic

A finite `float64` is a rational number; an operation on floats is the exact
operation on rationals followed by `rnd64`.  Overflow to infinity is outside
the model: `FormatDuration` only handles magnitudes below `2 ^ 64`.
-/

/-- The power `2 ^ k` for an integer exponent. -/
def pow2 (k : Int) : ℚ :=
  if 0 ≤ k then ((2 ^ k.toNat : Nat) : ℚ) else 1 / ((2 ^ (-k).toNat : Nat) : ℚ)

/-- Number of halvings that bring `n` below `2`, at most `fuel` of them. -/
def log2Aux : Nat → Nat → Nat
  | 0, _ => 0
  | fuel + 1, n => if n < 2 then 0 else log2Aux fuel (n / 2) + 1

/-- For `n > 0`, the natural number `k` with `2 ^ k ≤ n < 2 ^ (k + 1)`. -/
def log2 (n : Nat) : Nat := log2Aux n n

/-- For `a > 0`, the integer `e` with `2 ^ e ≤ a < 2 ^ (e + 1)`. -/
def ilog2 (a : ℚ) : Int :=
  let k : Int := (log2 a.num.natAbs : Int) - (log2 a.den : Int)
  if pow2 k ≤ a then k else k - 1

/-- Nearest integer, ties to the even one. -/
def roundEven (x : ℚ) : Int :=
  let f := ⌊x⌋
  let r := x - f
  if r < 1 / 2 then f else if 1 / 2 < r then f + 1 else if f % 2 = 0 then f else f + 1

/-- Rounding of a rational to `float64` (binary64: 53 significant bits,
exponents from `-1022`, subnormals below), to nearest, ties to even. -/
def rnd64 (q : ℚ) : ℚ :=
  if q = 0 then 0
  else
    let a := |q|
    let e := max (ilog2 a) (-1022)
    let u := pow2 (e - 52)
    (if q < 0 then -1 else 1) * (roundEven (a / u) : ℚ) * u

/-- The conversion `int(x)` of a `float64` within the `int` range: truncation
toward zero. -/
def toInt (x : ℚ) : Int := if 0 ≤ x then ⌊x⌋ else ⌈x⌉

/-- The method `time.Duration.Hours`:
`hour := d / Hour; nsec := d % Hour; return float64(hour) + float64(nsec)/(60*60*1e9)`. -/
def time.Duration.Hours (d : Int) : ℚ :=
  let hour := Int.tdiv d Hour
  let nsec := Int.tmod d Hour
  rnd64 (rnd64 (hour : ℚ) + rnd64 (rnd64 (nsec : ℚ) / rnd64 (60 * 60 * 1000000000)))

/-- The method `time.Duration.Minutes`:
`min := d / Minute; nsec := d % Minute; return float64(min) + float64(nsec)/(60*1e9)`. -/
def time.Duration.Minutes (d : Int) : ℚ :=
  let min := Int.tdiv d Minute
  let nsec := Int.tmod d Minute
  rnd64 (rnd64 (min : ℚ) + rnd64 (rnd64 (nsec : ℚ) / rnd64 (60 * 1000000000)))

/-- The method `time.Duration.Seconds`:
`sec := d / Second; nsec := d % Second; return float64(sec) + float64(nsec)/1e9`. -/
def time.Duration.Seconds (d : Int) : ℚ :=
  let sec := Int.tdiv d Second
  let nsec := Int.tmod d Second
  rnd64 (rnd64 (sec : ℚ) + rnd64 (rnd64 (nsec : ℚ) / rnd64 1000000000))

/-! ## `fmt.Sprintf` with `%d` -/

/-- Decimal digits of `n`, most significant first, in front of `acc`; `fuel`
bounds the number of digits. -/
def decimalAux : Nat → Nat → List Char → List Char
  | 0, _, acc => acc
  | fuel + 1, n, acc =>
    if n < 10 then Char.ofNat (48 + n) :: acc
    else decimalAux fuel (n / 10) (Char.ofNat (48 + n % 10) :: acc)

/-- Decimal digits of a natural number, without padding. -/
def decimal (n : Nat) : List Char := decimalAux (n + 1) n []

/-- The text that the verb `%d` produces for an `int`. -/
def fmtInt (v : Int) : List Char :=
  if v < 0 then '-' :: decimal v.natAbs else decimal v.natAbs

/-! ## `FormatDuration` -/

/-- The function `FormatDuration` of the source.  The `int` arithmetic on
`hours`, `minutes` and `seconds` is exact: for an `int64` duration every
intermediate value is below `2 ^ 35`. -/
def FormatDuration (duration : Int) : String :=
  if time.Duration.Seconds duration ≤ 0 then "PT0S"
  else
    let hours := toInt (time.Duration.Hours duration)
    let minutes := toInt (time.Duration.Minutes duration) - hours * 60
    let seconds := toInt (time.Duration.Seconds duration) - (hours * 3600 + minutes * 60)
    let s : List Char := ['P', 'T']
    let s := if hours > 0 then s ++ fmtInt hours ++ ['H'] else s
    let s := if minutes > 0 then s ++ fmtInt minutes ++ ['M'] else s
    let s := if seconds > 0 then s ++ fmtInt seconds ++ ['S'] else s
    String.mk s

/-! ## Input forms

The two grammars of the specification, as text built from digit runs.
-/

/-- Whether `ds` is a run of ASCII digits with at least one digit. -/
def isDigitRun (ds : List Char) : Bool := !ds.isEmpty && ds.all Char.isDigit

/-- Whether an optional digit run, when present, is a digit run. -/
def runOk (o : Option (List Char)) : Bool :=
  match o with
  | none => true
  | some ds => isDigitRun ds

/-- The digits of an optional digit run, empty when the run is absent. -/
def runText (o : Option (List Char)) : List Char := o.getD []

/-- The value of an optional digit run, `0` when the run is absent. -/
def runVal (o : Option (List Char)) : Nat := digitsVal (runText o)

/-- The text `<digits>c` of an optional part, empty when the part is absent. -/
def partText (o : Option (List Char)) (c : Char) : List Char :=
  match o with
  | none => []
  | some ds => ds ++ [c]

/-- The digit runs of a `T` section `T[<h>H][<mi>M][<s>S]`. -/
structure TimeForm where
  hour : Option (List Char)
  minute : Option (List Char)
  second : Option (List Char)

/-- The digit runs of an input of the full form
`P[<y>Y][<mo>M][<d>D][T[<h>H][<mi>M][<s>S]]`; `time` is `none` when there is
no `T`. -/
structure FullForm where
  year : Option (List Char)
  month : Option (List Char)
  day : Option (List Char)
  time : Option TimeForm

/-- The hour run of a full form. -/
def FullForm.hour (f : FullForm) : Option (List Char) := f.time.bind TimeForm.hour

/-- The minute run of a full form. -/
def FullForm.minute (f : FullForm) : Option (List Char) := f.time.bind TimeForm.minute

/-- The second run of a full form. -/
def FullForm.second (f : FullForm) : Option (List Char) := f.time.bind TimeForm.second

/-- The text of a `T` section. -/
def TimeForm.text (t : TimeForm) : List Char :=
  'T' :: (partText t.hour 'H' ++ (partText t.minute 'M' ++ partText t.second 'S'))

/-- The text of an optional `T` section. -/
def timeText (t : Option TimeForm) : List Char :=
  match t with
  | none => []
  | some t => t.text

/-- The input text of a full form. -/
def FullForm.text (f : FullForm) : List Char :=
  'P' :: (partText f.year 'Y' ++ (partText f.month 'M' ++ (partText f.day 'D' ++ timeText f.time)))

/-- Every part that is present is a non-empty run of digits. -/
def FullForm.WellFormed (f : FullForm) : Prop :=
  runOk f.year = true ∧ runOk f.month = true ∧ runOk f.day = true ∧
  runOk f.hour = true ∧ runOk f.minute = true ∧ runOk f.second = true

/-- Every digit run denotes a value that fits Go's `int`. -/
def FullForm.InIntRange (f : FullForm) : Prop :=
  runVal f.year ≤ maxInt ∧ runVal f.month ≤ maxInt ∧ runVal f.day ≤ maxInt ∧
  runVal f.hour ≤ maxInt ∧ runVal f.minute ≤ maxInt ∧ runVal f.second ≤ maxInt

/-- The number of seconds a full form stands for at the fixed rates (the month
part does not count). -/
def FullForm.seconds (f : FullForm) : Nat :=
  runVal f.year * 31536000 + runVal f.day * 86400 + runVal f.hour * 3600 +
    runVal f.minute * 60 + runVal f.second

/-- The text of the week form `P<n>W`. -/
def weekText (n : List Char) : List Char := 'P' :: (n ++ ['W'])

/-- The exact elapsed time, in nanoseconds, that the fields of a record stand
for at the fixed rates: 365 days a year, 7 days a week. -/
def Duration.total (r : Duration) : Int :=
  r.Years * (365 * 86400 * Second) + r.Weeks * (7 * 86400 * Second) +
    r.Days * (86400 * Second) + r.Hours * (3600 * Second) + r.Minutes * (60 * Second) +
    r.Seconds * Second

/-- The value of an optional part as the specification describes field
extraction: an absent part is left at zero, a present digit run is parsed as a
non-negative integer, and a run too large for the integer type is a conversion
error. -/
def fieldValue (o : Option (List Char)) : Except Error Int :=
  match o with
  | none => .ok 0
  | some ds => if digitsVal ds ≤ maxInt then .ok (digitsVal ds : Int) else .error (.ErrRange ds)

/-- The failure result: no elapsed time, no record, one error. -/
def failWith (e : Error) : ParseResult := ⟨0, none, some e⟩

/-- The result of converting the six parts of the full grammar as the
specification describes it: the parts are converted in the order year, month,
day, hour, minute, second; the first conversion error or a non-zero month ends
the parse with that error; otherwise the record holds the values and the
elapsed time is their total at the fixed rates, reduced to the range of
`time.Duration`. -/
def fieldsResult (year month day hour minute second : Option (List Char)) : ParseResult :=
  match fieldValue year with
  | .error e => failWith e
  | .ok y =>
    match fieldValue month with
    | .error e => failWith e
    | .ok mo =>
      if mo ≠ 0 then failWith .ErrNoMonth
      else
        match fieldValue day with
        | .error e => failWith e
        | .ok d =>
          match fieldValue hour with
          | .error e => failWith e
          | .ok h =>
            match fieldValue minute with
            | .error e => failWith e
            | .ok mi =>
              match fieldValue second with
              | .error e => failWith e
              | .ok sec =>
                ⟨wrap64 (Duration.total ⟨y, mo, 0, d, h, mi, sec⟩),
                  some ⟨y, mo, 0, d, h, mi, sec⟩, none⟩

/-- The result of parsing a full form as the specification describes it. -/
def fullFormResult (f : FullForm) : ParseResult :=
  fieldsResult f.year f.month f.day f.hour f.minute f.second

/-- The result of parsing a week count as the specification describes it: a
conversion error, or a record with only the weeks set and the elapsed time of
that many weeks, reduced to the range of `time.Duration`. -/
def weekResult (n : List Char) : ParseResult :=
  match fieldValue (some n) with
  | .error e => failWith e
  | .ok w => ⟨wrap64 (Duration.total ⟨0, 0, w, 0, 0, 0, 0⟩), some ⟨0, 0, w, 0, 0, 0, 0⟩, none⟩

/-- The full form of the input `P1Y2DT3H4M5S`. -/
def sampleForm : FullForm :=
  ⟨some ['1'], none, some ['2'], some ⟨some ['3'], some ['4'], some ['5']⟩⟩

/-- The full form of the input `P2Y0MT7S`, with a month part of value zero. -/
def zeroMonthForm : FullForm :=
  ⟨some ['2'], some ['0'], none, some ⟨none, none, some ['7']⟩⟩

/-- The full form of the input `P99999999999999999999Y`, whose year run is
larger than the largest `int`. -/
def overflowForm : FullForm :=
  ⟨some "99999999999999999999".data, none, none, none⟩

instance (f : FullForm) : Decidable f.WellFormed := by
  unfold FullForm.WellFormed; infer_instance

instance (f : FullForm) : Decidable f.InIntRange := by
  unfold FullForm.InIntRange; infer_instance

/-! ## Basic facts: machine arithmetic -/

theorem wrap64_of_range (x : Int) (h1 : -(2 ^ 63) ≤ x) (h2 : x < 2 ^ 63) : wrap64 x = x := by
  unfold wrap64; omega

theorem wrap64_range (x : Int) : -(2 ^ 63) ≤ wrap64 x ∧ wrap64 x < 2 ^ 63 := by
  unfold wrap64; omega

theorem wrap64_idem (x : Int) : wrap64 (wrap64 x) = wrap64 x := by
  unfold wrap64; omega

theorem wrap64_add_right (a b : Int) : wrap64 (a + wrap64 b) = wrap64 (a + b) := by
  unfold wrap64; omega

theorem wrap64_add_left (a b : Int) : wrap64 (wrap64 a + b) = wrap64 (a + b) := by
  unfold wrap64; omega

theorem day_eq : day = 86400000000000 := by decide

theorem weekDur_eq : weekDur = 604800000000000 := by decide

theorem year_eq : year = 31536000000000000 := by decide

/-! ## Basic facts: digit runs and the matchers -/

theorem isDigitRun_iff (ds : List Char) :
    isDigitRun ds = true ↔ ds ≠ [] ∧ ∀ c ∈ ds, c.isDigit = true := by
  cases ds <;> simp [isDigitRun]

theorem digitsThen_hit (c : Char) (ds rest : List Char) (hrun : isDigitRun ds = true)
    (hc : c.isDigit = false) : digitsThen c (ds ++ c :: rest) = some (ds, rest) := by
  obtain ⟨hne, hall⟩ := (isDigitRun_iff ds).1 hrun
  have h1 : (ds ++ c :: rest).takeWhile Char.isDigit = ds := by
    rw [List.takeWhile_append_of_pos hall]; simp [hc]
  have h2 : (ds ++ c :: rest).dropWhile Char.isDigit = c :: rest := by
    rw [List.dropWhile_append_of_pos hall]; simp [hc]
  unfold digitsThen
  rw [h1, h2]
  cases ds with
  | nil => exact absurd rfl hne
  | cons d ds => simp

theorem digitsThen_miss (c : Char) (s : List Char)
    (h : (s.dropWhile Char.isDigit).head? ≠ some c) : digitsThen c s = none := by
  unfold digitsThen
  split
  · rename_i d ds c' rest h1 h2
    rw [h2] at h
    have : c' ≠ c := by simpa using h
    simp [this]
  · rfl

theorem digitsThen_some (c : Char) (s ds rest : List Char) (h : digitsThen c s = some (ds, rest)) :
    isDigitRun ds = true ∧ s = ds ++ c :: rest := by
  unfold digitsThen at h
  split at h
  · rename_i d ds' c' rest' h1 h2
    split at h
    · rename_i hc
      simp only [Option.some.injEq, Prod.mk.injEq] at h
      obtain ⟨hd, hr⟩ := h
      subst hd hr hc
      refine ⟨?_, ?_⟩
      · rw [isDigitRun_iff]
        refine ⟨by simp, ?_⟩
        intro x hx
        rw [← h1] at hx
        exact List.mem_takeWhile_imp hx
      · rw [← h1, ← h2, List.takeWhile_append_dropWhile]
    · exact absurd h (by simp)
  · exact absurd h (by simp)

theorem dropWhile_partText (o : Option (List Char)) (c : Char) (rest : List Char)
    (ho : runOk o = true) (hc : c.isDigit = false) :
    ((partText o c ++ rest).dropWhile Char.isDigit).head? =
      match o with
      | some _ => some c
      | none => (rest.dropWhile Char.isDigit).head? := by
  cases o with
  | none => simp [partText]
  | some ds =>
    have hall := ((isDigitRun_iff ds).1 ho).2
    simp only [partText, List.append_assoc, List.singleton_append]
    rw [List.dropWhile_append_of_pos hall]; simp [hc]

theorem optGroup_partText (o : Option (List Char)) (c : Char) (rest : List Char)
    (ho : runOk o = true) (hc : c.isDigit = false)
    (hrest : (rest.dropWhile Char.isDigit).head? ≠ some c) :
    optGroup c (partText o c ++ rest) = ⟨partText o c, runText o, rest⟩ := by
  cases o with
  | none => simp [optGroup, partText, runText, digitsThen_miss c rest hrest]
  | some ds =>
    simp only [partText, List.append_assoc, List.singleton_append, optGroup, runText]
    rw [digitsThen_hit c ds rest ho hc]
    simp

theorem week_none_of_not_mem (s : List Char) (h : 'W' ∉ s) : week.FindStringSubmatch s = none := by
  induction s with
  | nil => rfl
  | cons c s ih =>
    have hs : 'W' ∉ s := fun hm => h (List.mem_cons_of_mem _ hm)
    have hw : weekHere s = none := by
      unfold weekHere
      cases hd : digitsThen 'W' s with
      | none => rfl
      | some p =>
        obtain ⟨ds, rest⟩ := p
        have := (digitsThen_some 'W' s ds rest hd).2
        exact absurd (this ▸ (by simp : 'W' ∈ ds ++ 'W' :: rest)) hs
    simp only [week.FindStringSubmatch, hw, ih hs]
    split <;> rfl

theorem not_mem_partText (o : Option (List Char)) (c : Char) (ho : runOk o = true) (hc : c ≠ 'W') :
    'W' ∉ partText o c := by
  cases o with
  | none => simp [partText]
  | some ds =>
    have hall := ((isDigitRun_iff ds).1 ho).2
    simp only [partText, List.mem_append, List.mem_singleton, not_or]
    refine ⟨fun hm => ?_, fun h => hc h.symm⟩
    have := hall _ hm
    exact absurd this (by decide)

theorem week_none_fullForm (f : FullForm) (hf : f.WellFormed) :
    week.FindStringSubmatch f.text = none := by
  apply week_none_of_not_mem
  obtain ⟨hy, hmo, hd, hh, hmi, hs⟩ := hf
  have h1 := not_mem_partText f.year 'Y' hy (by decide)
  have h2 := not_mem_partText f.month 'M' hmo (by decide)
  have h3 := not_mem_partText f.day 'D' hd (by decide)
  have h4 : 'W' ∉ timeText f.time := by
    cases ht : f.time with
    | none => simp [timeText]
    | some t =>
      simp only [FullForm.hour, FullForm.minute, FullForm.second, ht, Option.bind] at hh hmi hs
      have h5 := not_mem_partText t.hour 'H' hh (by decide)
      have h6 := not_mem_partText t.minute 'M' hmi (by decide)
      have h7 := not_mem_partText t.second 'S' hs (by decide)
      simp [timeText, TimeForm.text, h5, h6, h7]
  simp [FullForm.text, h1, h2, h3, h4]

theorem full_find_fullForm (f : FullForm) (hf : f.WellFormed) :
    full.FindStringSubmatch f.text =
      some [ f.text, partText f.year 'Y', runText f.year, partText f.month 'M', runText f.month,
        partText f.day 'D', runText f.day, timeText f.time,
        partText f.hour 'H', runText f.hour, partText f.minute 'M', runText f.minute,
        partText f.second 'S', runText f.second ] := by
  obtain ⟨hy, hmo, hd, hh, hmi, hs⟩ := hf
  obtain ⟨y, mo, d, t⟩ := f
  simp only at hy hmo hd
  have hT : ∀ t : Option TimeForm, ((timeText t).dropWhile Char.isDigit).head? ≠ some 'Y' ∧
      ((timeText t).dropWhile Char.isDigit).head? ≠ some 'M' ∧
      ((timeText t).dropWhile Char.isDigit).head? ≠ some 'D' := by
    intro t
    cases t <;> simp [timeText, TimeForm.text, List.dropWhile_cons]
  have hD : ((partText d 'D' ++ timeText t).dropWhile Char.isDigit).head? ≠ some 'Y' ∧
      ((partText d 'D' ++ timeText t).dropWhile Char.isDigit).head? ≠ some 'M' := by
    rw [dropWhile_partText d 'D' _ hd (by decide)]
    cases d
    · exact ⟨(hT t).1, (hT t).2.1⟩
    · simp
  have hM : ((partText mo 'M' ++ (partText d 'D' ++ timeText t)).dropWhile Char.isDigit).head? ≠
      some 'Y' := by
    rw [dropWhile_partText mo 'M' _ hmo (by decide)]
    cases mo
    · exact hD.1
    · simp
  simp only [full.FindStringSubmatch, FullForm.text, if_true, fullHere]
  rw [optGroup_partText y 'Y' _ hy (by decide) hM]
  simp only
  rw [optGroup_partText mo 'M' _ hmo (by decide) hD.2]
  simp only
  have := optGroup_partText d 'D' (timeText t) hd (by decide) (hT t).2.2
  rw [this]
  cases t with
  | none => simp [timeText, FullForm.hour, FullForm.minute, FullForm.second, partText, runText]
  | some t =>
    simp only [FullForm.hour, FullForm.minute, FullForm.second, Option.bind] at hh hmi hs
    obtain ⟨h, mi, sec⟩ := t
    simp only at hh hmi hs
    have hS : (([] : List Char).dropWhile Char.isDigit).head? ≠ some 'H' ∧
        (([] : List Char).dropWhile Char.isDigit).head? ≠ some 'M' ∧
        (([] : List Char).dropWhile Char.isDigit).head? ≠ some 'S' := by simp
    have hSec : ((partText sec 'S').dropWhile Char.isDigit).head? ≠ some 'H' ∧
        ((partText sec 'S').dropWhile Char.isDigit).head? ≠ some 'M' := by
      have := dropWhile_partText sec 'S' [] hs (by decide)
      rw [List.append_nil] at this
      rw [this]
      cases sec <;> simp
    have hMi : ((partText mi 'M' ++ partText sec 'S').dropWhile Char.isDigit).head? ≠ some 'H' := by
      rw [dropWhile_partText mi 'M' _ hmi (by decide)]
      cases mi
      · exact hSec.1
      · simp
    have e1 := optGroup_partText h 'H' (partText mi 'M' ++ partText sec 'S') hh (by decide) hMi
    have e2 := optGroup_partText mi 'M' (partText sec 'S') hmi (by decide) hSec.2
    have e3 := optGroup_partText sec 'S' [] hs (by decide) hS.2.2
    rw [List.append_nil] at e3
    simp only [timeText, TimeForm.text, e1, e2, e3, FullForm.hour, FullForm.minute,
      FullForm.second, Option.bind, List.append_assoc]

/-! ## Basic facts: `Atoi` and the loop -/

theorem Atoi_run (ds : List Char) (h : isDigitRun ds = true) :
    Atoi ds = if digitsVal ds ≤ maxInt then .ok (digitsVal ds : Int) else .error (.ErrRange ds) := by
  obtain ⟨hne, hall⟩ := (isDigitRun_iff ds).1 h
  cases ds with
  | nil => exact absurd rfl hne
  | cons c r =>
    have hc : c.isDigit = true := hall c (by simp)
    have h1 : c ≠ '-' := by rintro rfl; exact absurd hc (by decide)
    have h2 : c ≠ '+' := by rintro rfl; exact absurd hc (by decide)
    have h3 : (c :: r).all Char.isDigit = true := by
      rw [List.all_eq_true]; exact hall
    simp only [Atoi, h1, h2, or_self, if_false, h3]
    simp

theorem Atoi_runText (o : Option (List Char)) (ho : runOk o = true) (hne : runText o ≠ []) :
    Atoi (runText o) = fieldValue o := by
  cases o with
  | none => exact absurd rfl hne
  | some ds => simpa [runText, fieldValue] using Atoi_run ds ho

theorem runText_eq_nil (o : Option (List Char)) (ho : runOk o = true) :
    runText o = [] ↔ o = none := by
  cases o with
  | none => simp [runText]
  | some ds =>
    have := ((isDigitRun_iff ds).1 ho).1
    simp [runText, this]

theorem parseLoop_first (name : String) (names : List String) (part : List Char)
    (m : List (List Char)) (r : Duration) (d : Int) :
    parseLoop 0 (name :: names) (part :: m) r d = parseLoop 1 names m r d := by
  simp [parseLoop]

theorem parseLoop_unnamed (i : Nat) (names : List String) (part : List Char)
    (m : List (List Char)) (r : Duration) (d : Int) :
    parseLoop i ("" :: names) (part :: m) r d = parseLoop (i + 1) names m r d := by
  simp [parseLoop]

theorem parseLoop_year (i : Nat) (hi : i ≠ 0) (o : Option (List Char)) (ho : runOk o = true)
    (names : List String) (m : List (List Char)) (r : Duration) (d : Int)
    (hr : r.Years = 0) (hd : wrap64 d = d) :
    parseLoop i ("year" :: names) (runText o :: m) r d =
      match fieldValue o with
      | .error e => failWith e
      | .ok v => parseLoop (i + 1) names m { r with Years := v } (wrap64 (d + year * v)) := by
  by_cases hn : runText o = []
  · have : o = none := (runText_eq_nil o ho).1 hn
    subst this
    obtain ⟨a, b, c, e, f, g, k⟩ := r
    simp only at hr
    subst hr
    simp [parseLoop, runText, fieldValue, hd]
  · simp only [parseLoop, hi, hn, Atoi_runText o ho hn, wrap64_add_right]
    cases fieldValue o <;> simp [failWith]

theorem parseLoop_week (i : Nat) (hi : i ≠ 0) (o : Option (List Char)) (ho : runOk o = true)
    (names : List String) (m : List (List Char)) (r : Duration) (d : Int)
    (hr : r.Weeks = 0) (hd : wrap64 d = d) :
    parseLoop i ("week" :: names) (runText o :: m) r d =
      match fieldValue o with
      | .error e => failWith e
      | .ok v => parseLoop (i + 1) names m { r with Weeks := v } (wrap64 (d + weekDur * v)) := by
  by_cases hn : runText o = []
  · have : o = none := (runText_eq_nil o ho).1 hn
    subst this
    obtain ⟨a, b, c, e, f, g, k⟩ := r
    simp only at hr
    subst hr
    simp [parseLoop, runText, fieldValue, hd]
  · simp only [parseLoop, hi, hn, Atoi_runText o ho hn, wrap64_add_right]
    cases fieldValue o <;> simp [failWith]

theorem parseLoop_day (i : Nat) (hi : i ≠ 0) (o : Option (List Char)) (ho : runOk o = true)
    (names : List String) (m : List (List Char)) (r : Duration) (d : Int)
    (hr : r.Days = 0) (hd : wrap64 d = d) :
    parseLoop i ("day" :: names) (runText o :: m) r d =
      match fieldValue o with
      | .error e => failWith e
      | .ok v => parseLoop (i + 1) names m { r with Days := v } (wrap64 (d + day * v)) := by
  by_cases hn : runText o = []
  · have : o = none := (runText_eq_nil o ho).1 hn
    subst this
    obtain ⟨a, b, c, e, f, g, k⟩ := r
    simp only at hr
    subst hr
    simp [parseLoop, runText, fieldValue, hd]
  · simp only [parseLoop, hi, hn, Atoi_runText o ho hn, wrap64_add_right]
    cases fieldValue o <;> simp [failWith]

theorem parseLoop_hour (i : Nat) (hi : i ≠ 0) (o : Option (List Char)) (ho : runOk o = true)
    (names : List String) (m : List (List Char)) (r : Duration) (d : Int)
    (hr : r.Hours = 0) (hd : wrap64 d = d) :
    parseLoop i ("hour" :: names) (runText o :: m) r d =
      match fieldValue o with
      | .error e => failWith e
      | .ok v => parseLoop (i + 1) names m { r with Hours := v } (wrap64 (d + Hour * v)) := by
  by_cases hn : runText o = []
  · have : o = none := (runText_eq_nil o ho).1 hn
    subst this
    obtain ⟨a, b, c, e, f, g, k⟩ := r
    simp only at hr
    subst hr
    simp [parseLoop, runText, fieldValue, hd]
  · simp only [parseLoop, hi, hn, Atoi_runText o ho hn, wrap64_add_right]
    cases fieldValue o <;> simp [failWith]

theorem parseLoop_minute (i : Nat) (hi : i ≠ 0) (o : Option (List Char)) (ho : runOk o = true)
    (names : List String) (m : List (List Char)) (r : Duration) (d : Int)
    (hr : r.Minutes = 0) (hd : wrap64 d = d) :
    parseLoop i ("minute" :: names) (runText o :: m) r d =
      match fieldValue o with
      | .error e => failWith e
      | .ok v => parseLoop (i + 1) names m { r with Minutes := v } (wrap64 (d + Minute * v)) := by
  by_cases hn : runText o = []
  · have : o = none := (runText_eq_nil o ho).1 hn
    subst this
    obtain ⟨a, b, c, e, f, g, k⟩ := r
    simp only at hr
    subst hr
    simp [parseLoop, runText, fieldValue, hd]
  · simp only [parseLoop, hi, hn, Atoi_runText o ho hn, wrap64_add_right]
    cases fieldValue o <;> simp [failWith]

theorem parseLoop_second (i : Nat) (hi : i ≠ 0) (o : Option (List Char)) (ho : runOk o = true)
    (names : List String) (m : List (List Char)) (r : Duration) (d : Int)
    (hr : r.Seconds = 0) (hd : wrap64 d = d) :
    parseLoop i ("second" :: names) (runText o :: m) r d =
      match fieldValue o with
      | .error e => failWith e
      | .ok v => parseLoop (i + 1) names m { r with Seconds := v } (wrap64 (d + Second * v)) := by
  by_cases hn : runText o = []
  · have : o = none := (runText_eq_nil o ho).1 hn
    subst this
    obtain ⟨a, b, c, e, f, g, k⟩ := r
    simp only at hr
    subst hr
    simp [parseLoop, runText, fieldValue, hd]
  · simp only [parseLoop, hi, hn, Atoi_runText o ho hn, wrap64_add_right]
    cases fieldValue o <;> simp [failWith]

theorem parseLoop_month (i : Nat) (hi : i ≠ 0) (o : Option (List Char)) (ho : runOk o = true)
    (names : List String) (m : List (List Char)) (r : Duration) (d : Int)
    (hr : r.Months = 0) :
    parseLoop i ("month" :: names) (runText o :: m) r d =
      match fieldValue o with
      | .error e => failWith e
      | .ok v =>
        if v ≠ 0 then failWith .ErrNoMonth
        else parseLoop (i + 1) names m { r with Months := v } d := by
  by_cases hn : runText o = []
  · have : o = none := (runText_eq_nil o ho).1 hn
    subst this
    obtain ⟨a, b, c, e, f, g, k⟩ := r
    simp only at hr
    subst hr
    simp [parseLoop, runText, fieldValue]
  · simp only [parseLoop, hi, hn, Atoi_runText o ho hn]
    cases fieldValue o <;> simp [failWith]

theorem parseLoop_done (i : Nat) (r : Duration) (d : Int) :
    parseLoop i [] [] r d = ⟨d, some r, none⟩ := by
  simp [parseLoop]

theorem wrap64_total (y d h mi sec : Int) :
    wrap64 (wrap64 (wrap64 (wrap64 (wrap64 (0 + year * y) + day * d) + Hour * h) + Minute * mi) +
      Second * sec) = wrap64 (Duration.total ⟨y, 0, 0, d, h, mi, sec⟩) := by
  simp only [wrap64_add_left, year_eq, day_eq, Duration.total, Hour, Minute, Second]
  congr 1
  ring

theorem parseLoop_full (w g1 g3 g5 g7 g8 g10 g12 : List Char)
    (oy omo od oh omi os : Option (List Char))
    (hy : runOk oy = true) (hmo : runOk omo = true) (hd : runOk od = true)
    (hh : runOk oh = true) (hmi : runOk omi = true) (hs : runOk os = true) :
    parseLoop 0 full.SubexpNames
      [w, g1, runText oy, g3, runText omo, g5, runText od, g7, g8, runText oh, g10, runText omi,
        g12, runText os] ⟨0, 0, 0, 0, 0, 0, 0⟩ 0 = fieldsResult oy omo od oh omi os := by
  simp only [full.SubexpNames]
  rw [parseLoop_first, parseLoop_unnamed, parseLoop_year _ (by decide) _ hy _ _ _ _ rfl (by decide)]
  unfold fieldsResult
  cases fieldValue oy with
  | error e => rfl
  | ok y =>
    simp only
    rw [parseLoop_unnamed, parseLoop_month _ (by decide) _ hmo _ _ _ _ rfl]
    cases fieldValue omo with
    | error e => rfl
    | ok mo =>
      simp only
      by_cases hmz : mo = 0
      · subst hmz
        simp only [ne_eq, not_true_eq_false, if_false]
        rw [parseLoop_unnamed, parseLoop_day _ (by decide) _ hd _ _ _ _ rfl (wrap64_idem _)]
        cases fieldValue od with
        | error e => rfl
        | ok d =>
          simp only
          rw [parseLoop_unnamed, parseLoop_unnamed,
            parseLoop_hour _ (by decide) _ hh _ _ _ _ rfl (wrap64_idem _)]
          cases fieldValue oh with
          | error e => rfl
          | ok h =>
            simp only
            rw [parseLoop_unnamed, parseLoop_minute _ (by decide) _ hmi _ _ _ _ rfl (wrap64_idem _)]
            cases fieldValue omi with
            | error e => rfl
            | ok mi =>
              simp only
              rw [parseLoop_unnamed,
                parseLoop_second _ (by decide) _ hs _ _ _ _ rfl (wrap64_idem _)]
              cases fieldValue os with
              | error e => rfl
              | ok sec =>
                simp only
                rw [parseLoop_done, wrap64_total]
      · simp [hmz]

theorem parseLoop_week_names (w g1 n : List Char) (hn : isDigitRun n = true) :
    parseLoop 0 week.SubexpNames [w, g1, n] ⟨0, 0, 0, 0, 0, 0, 0⟩ 0 = weekResult n := by
  simp only [week.SubexpNames]
  have := parseLoop_week 2 (by decide) (some n) hn [] [] ⟨0, 0, 0, 0, 0, 0, 0⟩ 0 rfl (by decide)
  simp only [runText, Option.getD_some] at this
  rw [parseLoop_first, parseLoop_unnamed, this]
  unfold weekResult
  cases fieldValue (some n) with
  | error e => rfl
  | ok v =>
    simp only [parseLoop_done, weekDur_eq, Duration.total, Second]
    congr 1
    · congr 1; ring

/-- On a well-formed full form the parser computes the result the specification
describes. -/
theorem ParseDuration_fullForm (f : FullForm) (hf : f.WellFormed) :
    ParseDuration (String.mk f.text) = fullFormResult f := by
  have hw := week_none_fullForm f hf
  have hfull := full_find_fullForm f hf
  obtain ⟨hy, hmo, hd, hh, hmi, hs⟩ := hf
  simp only [ParseDuration, week.MatchString, full.MatchString, hw, hfull, Option.isSome_none,
    Option.isSome_some, if_true, Bool.false_eq_true, if_false]
  exact parseLoop_full _ _ _ _ _ _ _ _ _ _ _ _ _ _ hy hmo hd hh hmi hs

/-! ## What the parser does on an arbitrary input -/

theorem optGroup_inner (c : Char) (s : List Char) :
    ∃ o, runOk o = true ∧ (optGroup c s).inner = runText o := by
  unfold optGroup
  cases h : digitsThen c s with
  | none => exact ⟨none, rfl, rfl⟩
  | some p =>
    obtain ⟨ds, rest⟩ := p
    exact ⟨some ds, (digitsThen_some c s ds rest h).1, rfl⟩

theorem fullHere_shape (s : List Char) :
    ∃ w g1 g3 g5 g7 g8 g10 g12 : List Char, ∃ oy omo od oh omi os : Option (List Char),
      runOk oy = true ∧ runOk omo = true ∧ runOk od = true ∧
      runOk oh = true ∧ runOk omi = true ∧ runOk os = true ∧
      fullHere s = [w, g1, runText oy, g3, runText omo, g5, runText od, g7, g8, runText oh, g10,
        runText omi, g12, runText os] := by
  obtain ⟨oy, hy, ey⟩ := optGroup_inner 'Y' s
  obtain ⟨omo, hmo, emo⟩ := optGroup_inner 'M' (optGroup 'Y' s).rest
  obtain ⟨od, hd, ed⟩ := optGroup_inner 'D' (optGroup 'M' (optGroup 'Y' s).rest).rest
  unfold fullHere
  simp only
  split
  · rename_i s4 hs4
    obtain ⟨oh, hh, eh⟩ := optGroup_inner 'H' s4
    obtain ⟨omi, hmi, emi⟩ := optGroup_inner 'M' (optGroup 'H' s4).rest
    obtain ⟨os, hs, es⟩ := optGroup_inner 'S' (optGroup 'M' (optGroup 'H' s4).rest).rest
    rw [ey, emo, ed, eh, emi, es]
    exact ⟨_, _, _, _, _, _, _, _, oy, omo, od, oh, omi, os, hy, hmo, hd, hh, hmi, hs, rfl⟩
  · rw [ey, emo, ed]
    exact ⟨_, _, _, _, _, _, _, _, oy, omo, od, none, none, none, hy, hmo, hd, rfl, rfl, rfl, rfl⟩

theorem full_find_cases (value : List Char) :
    ('P' ∉ value ∧ full.FindStringSubmatch value = none) ∨
      ('P' ∈ value ∧ ∃ s, full.FindStringSubmatch value = some (fullHere s)) := by
  induction value with
  | nil => left; simp [full.FindStringSubmatch]
  | cons c s ih =>
    by_cases hc : c = 'P'
    · right; subst hc; exact ⟨by simp, s, by simp [full.FindStringSubmatch]⟩
    · have hc' : 'P' ≠ c := fun h => hc h.symm
      rcases ih with ⟨h1, h2⟩ | ⟨h1, h2⟩
      · left; simp [full.FindStringSubmatch, hc, hc', h1, h2]
      · right; simp [full.FindStringSubmatch, hc, h1, h2]

theorem week_find_some (value : List Char) (m : List (List Char))
    (h : week.FindStringSubmatch value = some m) :
    ∃ pre n post, isDigitRun n = true ∧ value = pre ++ (weekText n ++ post) ∧
      m = ['P' :: (n ++ ['W']), n ++ ['W'], n] := by
  induction value with
  | nil => simp [week.FindStringSubmatch] at h
  | cons c s ih =>
    have step : week.FindStringSubmatch s = some m →
        ∃ pre n post, isDigitRun n = true ∧ c :: s = pre ++ (weekText n ++ post) ∧
          m = ['P' :: (n ++ ['W']), n ++ ['W'], n] := by
      intro h'
      obtain ⟨pre, n, post, hn, hv, hm⟩ := ih h'
      exact ⟨c :: pre, n, post, hn, by rw [hv]; rfl, hm⟩
    unfold week.FindStringSubmatch at h
    split at h
    · rename_i hc
      subst hc
      cases hw : weekHere s with
      | none => rw [hw] at h; exact step h
      | some m' =>
        rw [hw] at h
        simp only [Option.some.injEq] at h
        subst h
        unfold weekHere at hw
        cases hd : digitsThen 'W' s with
        | none => rw [hd] at hw; simp at hw
        | some p =>
          obtain ⟨ds, rest⟩ := p
          rw [hd] at hw
          simp only [Option.some.injEq] at hw
          obtain ⟨hrun, hs⟩ := digitsThen_some 'W' s ds rest hd
          refine ⟨[], ds, rest, hrun, ?_, hw.symm⟩
          simp [weekText, hs]
    · exact step h

theorem week_find_none_of_no_P (value : List Char) (h : 'P' ∉ value) :
    week.FindStringSubmatch value = none := by
  induction value with
  | nil => rfl
  | cons c s ih =>
    have hc : c ≠ 'P' := fun hc => h (by simp [hc])
    have hs : 'P' ∉ s := fun hm => h (List.mem_cons_of_mem _ hm)
    simp [week.FindStringSubmatch, hc, ih hs]

/-- Every call of the parser ends in one of three ways: the input has no `P`
and the format error is returned; the input contains a week count and the week
result is returned; or the six parts found after the first `P` are converted. -/
theorem ParseDuration_cases (value : String) :
    ('P' ∉ value.data ∧ ParseDuration value = failWith .ErrBadFormat) ∨
    (∃ pre n post, isDigitRun n = true ∧ value.data = pre ++ (weekText n ++ post) ∧
      ParseDuration value = weekResult n) ∨
    ('P' ∈ value.data ∧ ∃ oy omo od oh omi os : Option (List Char),
      runOk oy = true ∧ runOk omo = true ∧ runOk od = true ∧
      runOk oh = true ∧ runOk omi = true ∧ runOk os = true ∧
      ParseDuration value = fieldsResult oy omo od oh omi os) := by
  cases hw : week.FindStringSubmatch value.data with
  | some m =>
    right; left
    obtain ⟨pre, n, post, hn, hv, hm⟩ := week_find_some _ _ hw
    refine ⟨pre, n, post, hn, hv, ?_⟩
    simp only [ParseDuration, week.MatchString, hw, Option.isSome_some, if_true]
    rw [hm]
    exact parseLoop_week_names _ _ _ hn
  | none =>
    rcases full_find_cases value.data with ⟨h1, h2⟩ | ⟨h1, s, h2⟩
    · left
      refine ⟨h1, ?_⟩
      simp [ParseDuration, week.MatchString, full.MatchString, hw, h2, failWith]
    · right; right
      refine ⟨h1, ?_⟩
      obtain ⟨w, g1, g3, g5, g7, g8, g10, g12, oy, omo, od, oh, omi, os, hy, hmo, hd, hh, hmi, hs,
        hm⟩ := fullHere_shape s
      refine ⟨oy, omo, od, oh, omi, os, hy, hmo, hd, hh, hmi, hs, ?_⟩
      simp only [ParseDuration, week.MatchString, full.MatchString, hw, h2, Option.isSome_none,
        Option.isSome_some, if_true, Bool.false_eq_true, if_false]
      rw [hm]
      exact parseLoop_full _ _ _ _ _ _ _ _ _ _ _ _ _ _ hy hmo hd hh hmi hs

/-! ## Basic facts: the reference results -/

theorem fieldValue_ok (o : Option (List Char)) (h : runVal o ≤ maxInt) :
    fieldValue o = .ok (runVal o : Int) := by
  cases o with
  | none => rfl
  | some ds =>
    have h' : digitsVal ds ≤ maxInt := h
    simp [fieldValue, runVal, runText, h']

theorem fieldValue_nonneg (o : Option (List Char)) (v : Int) (h : fieldValue o = .ok v) :
    0 ≤ v := by
  cases o with
  | none =>
    simp only [fieldValue, Except.ok.injEq] at h
    omega
  | some ds =>
    simp only [fieldValue] at h
    split at h
    · simp only [Except.ok.injEq] at h
      omega
    · exact absurd h (by simp)

theorem fieldsResult_cases (oy omo od oh omi os : Option (List Char)) :
    (∃ e, fieldsResult oy omo od oh omi os = failWith e) ∨
    (∃ y d h mi sec : Int, 0 ≤ y ∧ 0 ≤ d ∧ 0 ≤ h ∧ 0 ≤ mi ∧ 0 ≤ sec ∧
      fieldsResult oy omo od oh omi os =
        ⟨wrap64 (Duration.total ⟨y, 0, 0, d, h, mi, sec⟩), some ⟨y, 0, 0, d, h, mi, sec⟩, none⟩) := by
  unfold fieldsResult
  cases hy : fieldValue oy with
  | error e => exact Or.inl ⟨e, rfl⟩
  | ok y =>
    cases hmo : fieldValue omo with
    | error e => exact Or.inl ⟨e, rfl⟩
    | ok mo =>
      by_cases hmz : mo = 0
      · subst hmz
        cases hd : fieldValue od with
        | error e => exact Or.inl ⟨e, by simp⟩
        | ok d =>
          cases hh : fieldValue oh with
          | error e => exact Or.inl ⟨e, by simp⟩
          | ok h =>
            cases hmi : fieldValue omi with
            | error e => exact Or.inl ⟨e, by simp⟩
            | ok mi =>
              cases hs : fieldValue os with
              | error e => exact Or.inl ⟨e, by simp⟩
              | ok sec =>
                exact Or.inr ⟨y, d, h, mi, sec, fieldValue_nonneg _ _ hy, fieldValue_nonneg _ _ hd,
                  fieldValue_nonneg _ _ hh, fieldValue_nonneg _ _ hmi, fieldValue_nonneg _ _ hs,
                  by simp⟩
      · exact Or.inl ⟨.ErrNoMonth, by simp [hmz]⟩

theorem weekResult_cases (n : List Char) :
    (∃ e, weekResult n = failWith e) ∨
    weekResult n =
      ⟨wrap64 (Duration.total ⟨0, 0, digitsVal n, 0, 0, 0, 0⟩),
        some ⟨0, 0, digitsVal n, 0, 0, 0, 0⟩, none⟩ := by
  unfold weekResult fieldValue
  by_cases h : digitsVal n ≤ maxInt
  · right; simp [h]
  · left; exact ⟨.ErrRange n, by simp [h]⟩

theorem total_nonneg (y w d h mi sec : Int) (hy : 0 ≤ y) (hw : 0 ≤ w) (hd : 0 ≤ d) (hh : 0 ≤ h)
    (hmi : 0 ≤ mi) (hs : 0 ≤ sec) : 0 ≤ Duration.total ⟨y, 0, w, d, h, mi, sec⟩ := by
  simp only [Duration.total, Second]
  positivity

/-- Every successful parse returns a record without months whose fields are
non-negative, and the elapsed time is the total of the record reduced to the
range of `time.Duration`. -/
theorem ParseDuration_success (value : String) (h : (ParseDuration value).err = none) :
    ∃ r, ParseDuration value = ⟨wrap64 r.total, some r, none⟩ ∧ r.Months = 0 ∧ 0 ≤ r.total ∧
      (r.Weeks ≠ 0 → ∃ pre n post, isDigitRun n = true ∧
        value.data = pre ++ (weekText n ++ post) ∧ r = ⟨0, 0, digitsVal n, 0, 0, 0, 0⟩) := by
  rcases ParseDuration_cases value with ⟨_, h1⟩ | ⟨pre, n, post, hn, hv, h1⟩ |
      ⟨_, oy, omo, od, oh, omi, os, _, _, _, _, _, _, h1⟩
  · rw [h1] at h; simp [failWith] at h
  · rcases weekResult_cases n with ⟨e, h2⟩ | h2
    · rw [h1, h2] at h; simp [failWith] at h
    · refine ⟨⟨0, 0, digitsVal n, 0, 0, 0, 0⟩, by rw [h1, h2], rfl, ?_, ?_⟩
      · exact total_nonneg 0 _ 0 0 0 0 le_rfl (by omega) le_rfl le_rfl le_rfl le_rfl
      · intro _; exact ⟨pre, n, post, hn, hv, rfl⟩
  · rcases fieldsResult_cases oy omo od oh omi os with ⟨e, h2⟩ | ⟨y, d, hh, mi, sec, hy, hd, hh', hmi,
      hs, h2⟩
    · rw [h1, h2] at h; simp [failWith] at h
    · refine ⟨⟨y, 0, 0, d, hh, mi, sec⟩, by rw [h1, h2], rfl, ?_, ?_⟩
      · exact total_nonneg y 0 d hh mi sec hy le_rfl hd hh' hmi hs
      · intro hw; exact absurd rfl hw

/-! ## The parser on the two grammars -/

/-- C1: for every input that is exactly of the full form
`P[<y>Y][<mo>M][<d>D][T[<h>H][<mi>M][<s>S]]` (each part optional), where every
digit run fits the `int` type, the month part is absent or zero and the total
fits in a signed 64-bit count of nanoseconds, `ParseDuration` returns a nil
error, the record with `Years = y`, `Days = d`, `Hours = h`, `Minutes = mi`,
`Seconds = s` (an absent part being 0), `Months = 0` and `Weeks = 0`, and the
elapsed time of `y*31536000 + d*86400 + h*3600 + mi*60 + s` seconds. -/
theorem ParseDuration_full_form (f : FullForm) (hwf : f.WellFormed) (hint : f.InIntRange)
    (hmonth : f.month = none ∨ runVal f.month = 0)
    (hfit : (f.seconds : Int) * Second ≤ maxDuration) :
    ParseDuration (String.mk f.text) =
      ⟨(f.seconds : Int) * Second,
        some ⟨runVal f.year, 0, 0, runVal f.day, runVal f.hour, runVal f.minute, runVal f.second⟩,
        none⟩ := by
  obtain ⟨iy, imo, id, ih, imi, is⟩ := hint
  have hm0 : runVal f.month = 0 := by
    rcases hmonth with h | h
    · rw [h]; rfl
    · exact h
  rw [ParseDuration_fullForm f hwf]
  unfold fullFormResult fieldsResult
  rw [fieldValue_ok _ iy, fieldValue_ok _ imo, fieldValue_ok _ id, fieldValue_ok _ ih,
    fieldValue_ok _ imi, fieldValue_ok _ is]
  simp only [hm0, Nat.cast_zero, ne_eq, not_true_eq_false, if_false]
  have ht : Duration.total ⟨runVal f.year, 0, 0, runVal f.day, runVal f.hour, runVal f.minute,
      runVal f.second⟩ = (f.seconds : Int) * Second := by
    simp only [Duration.total, FullForm.seconds, Second]
    push_cast
    ring
  rw [ht, wrap64_of_range]
  · have : (0 : Int) ≤ (f.seconds : Int) * Second :=
      Int.mul_nonneg (Int.ofNat_nonneg _) (by decide)
    omega
  · simp only [maxDuration] at hfit
    omega

/-- Witness of C1: the input `P1Y2DT3H4M5S` of the specification. -/
theorem ParseDuration_full_form_witness :
    sampleForm.WellFormed ∧ sampleForm.InIntRange ∧
    (sampleForm.month = none ∨ runVal sampleForm.month = 0) ∧
    (sampleForm.seconds : Int) * Second ≤ maxDuration ∧
    ParseDuration "P1Y2DT3H4M5S" = ⟨31719845000000000, some ⟨1, 0, 0, 2, 3, 4, 5⟩, none⟩ :=
  ⟨by decide, by decide, Or.inl rfl, by decide,
    ParseDuration_full_form sampleForm (by decide) (by decide) (Or.inl rfl) (by decide)⟩

/-- C2: for every non-empty digit run `n` whose value fits the `int` type and
for which `n*604800` seconds fit in a signed 64-bit count of nanoseconds,
`ParseDuration("P" ++ n ++ "W")` succeeds with elapsed time `n*604800` seconds
and a record whose `Weeks` is `n` and whose other six fields are 0. -/
theorem ParseDuration_week_form (n : List Char) (hn : isDigitRun n = true)
    (hint : digitsVal n ≤ maxInt)
    (hfit : (digitsVal n : Int) * 604800 * Second ≤ maxDuration) :
    ParseDuration (String.mk (weekText n)) =
      ⟨(digitsVal n : Int) * 604800 * Second, some ⟨0, 0, digitsVal n, 0, 0, 0, 0⟩, none⟩ := by
  have hfind : week.FindStringSubmatch (weekText n) = some ['P' :: (n ++ ['W']), n ++ ['W'], n] := by
    have := digitsThen_hit 'W' n [] hn (by decide)
    simp [weekText, week.FindStringSubmatch, weekHere, this]
  simp only [ParseDuration, week.MatchString, hfind, Option.isSome_some, if_true]
  rw [parseLoop_week_names _ _ _ hn]
  unfold weekResult
  have hv : fieldValue (some n) = .ok (digitsVal n : Int) := fieldValue_ok (some n) hint
  rw [hv]
  simp only
  have ht : Duration.total ⟨0, 0, digitsVal n, 0, 0, 0, 0⟩ = (digitsVal n : Int) * 604800 * Second := by
    simp only [Duration.total, Second]
    ring
  rw [ht, wrap64_of_range]
  · have : (0 : Int) ≤ (digitsVal n : Int) * 604800 * Second :=
      Int.mul_nonneg (Int.mul_nonneg (Int.ofNat_nonneg _) (by decide)) (by decide)
    omega
  · simp only [maxDuration] at hfit
    omega

/-- Witness of C2: `P2W` gives 1,209,600 seconds and `Weeks = 2`. -/
theorem ParseDuration_week_form_witness :
    isDigitRun ['2'] = true ∧ digitsVal ['2'] ≤ maxInt ∧
    (digitsVal ['2'] : Int) * 604800 * Second ≤ maxDuration ∧
    ParseDuration "P2W" = ⟨1209600 * Second, some ⟨0, 0, 2, 0, 0, 0, 0⟩, none⟩ :=
  ⟨by decide, by decide, by decide,
    ParseDuration_week_form ['2'] (by decide) (by decide) (by decide)⟩

/-- C3: among the inputs that are exactly of the full form with every digit run
within the `int` range, `ParseDuration` fails with `ErrNoMonth` if and only if
the month part is present with a non-zero value; a month part of value zero is
tolerated: no error, `Months = 0` and the elapsed time of the same input
without its month part; `P0M` gives no error and `P1M` fails with
`ErrNoMonth`. -/
theorem ParseDuration_month (f : FullForm) (hwf : f.WellFormed) (hint : f.InIntRange) :
    ((ParseDuration (String.mk f.text)).err = some .ErrNoMonth ↔
      ∃ ds, f.month = some ds ∧ digitsVal ds ≠ 0) ∧
    (∀ ds, f.month = some ds → digitsVal ds = 0 →
      (ParseDuration (String.mk f.text)).err = none ∧
      (∃ r, (ParseDuration (String.mk f.text)).record = some r ∧ r.Months = 0) ∧
      (ParseDuration (String.mk f.text)).elapsed =
        (ParseDuration (String.mk ({ f with month := none } : FullForm).text)).elapsed) ∧
    ParseDuration "P0M" = ⟨0, some ⟨0, 0, 0, 0, 0, 0, 0⟩, none⟩ ∧
    ParseDuration "P1M" = ⟨0, none, some .ErrNoMonth⟩ := by
  have hwf' : ({ f with month := none } : FullForm).WellFormed := by
    obtain ⟨hy, hmo, hd, hh, hmi, hs⟩ := hwf
    exact ⟨hy, rfl, hd, hh, hmi, hs⟩
  rw [ParseDuration_fullForm f hwf, ParseDuration_fullForm _ hwf']
  obtain ⟨iy, imo, id, ih, imi, is⟩ := hint
  unfold fullFormResult fieldsResult
  simp only [FullForm.hour, FullForm.minute, FullForm.second] at ih imi is ⊢
  rw [fieldValue_ok _ iy, fieldValue_ok _ imo, fieldValue_ok _ id, fieldValue_ok _ ih,
    fieldValue_ok _ imi, fieldValue_ok _ is]
  refine ⟨?_, ?_, by decide, by decide⟩
  · cases hm : f.month with
    | none => simp [runVal, runText, digitsVal, fieldValue]
    | some ds =>
      by_cases hz : digitsVal ds = 0
      · simp [runVal, runText, hz]
      · simp [runVal, runText, hz, failWith]
  · intro ds hm hz
    simp [hm, runVal, runText, hz, fieldValue, Duration.total]

/-- Witness of C3: the input `P2Y0MT7S`, whose month part has value zero. -/
theorem ParseDuration_month_witness :
    zeroMonthForm.WellFormed ∧ zeroMonthForm.InIntRange ∧
    (((ParseDuration (String.mk zeroMonthForm.text)).err = some .ErrNoMonth ↔
      ∃ ds, zeroMonthForm.month = some ds ∧ digitsVal ds ≠ 0) ∧
    (∀ ds, zeroMonthForm.month = some ds → digitsVal ds = 0 →
      (ParseDuration (String.mk zeroMonthForm.text)).err = none ∧
      (∃ r, (ParseDuration (String.mk zeroMonthForm.text)).record = some r ∧ r.Months = 0) ∧
      (ParseDuration (String.mk zeroMonthForm.text)).elapsed =
        (ParseDuration (String.mk ({ zeroMonthForm with month := none } : FullForm).text)).elapsed) ∧
    ParseDuration "P0M" = ⟨0, some ⟨0, 0, 0, 0, 0, 0, 0⟩, none⟩ ∧
    ParseDuration "P1M" = ⟨0, none, some .ErrNoMonth⟩) :=
  ⟨by decide, by decide, ParseDuration_month zeroMonthForm (by decide) (by decide)⟩

/-! ## Rejected and accepted inputs -/

/-- C7, as stated, fails: the input `xP` does not begin with `P`, yet
`ParseDuration` returns a nil error and an all-zero record for it, because the
pattern `full` is not anchored and matches the `P` inside the input. -/
theorem ParseDuration_bad_prefix_counterexample :
    "xP".data.head? ≠ some 'P' ∧
    ParseDuration "xP" = ⟨0, some ⟨0, 0, 0, 0, 0, 0, 0⟩, none⟩ ∧
    (ParseDuration "xP").err ≠ some .ErrBadFormat := by
  decide

/-- C7, amended: for every input string that is empty or, more generally,
contains no character `P` at all, `ParseDuration` fails with `ErrBadFormat`
(and returns elapsed time 0 and no record). -/
theorem ParseDuration_no_P (value : String) (h : value = "" ∨ 'P' ∉ value.data) :
    ParseDuration value = ⟨0, none, some .ErrBadFormat⟩ := by
  have hP : 'P' ∉ value.data := by
    rcases h with h | h
    · subst h; simp
    · exact h
  rcases full_find_cases value.data with ⟨_, h2⟩ | ⟨h1, _⟩
  · simp [ParseDuration, week.MatchString, full.MatchString, week_find_none_of_no_P _ hP, h2]
  · exact absurd h1 hP

/-- Witness of C7, amended: the empty input and an input without `P`. -/
theorem ParseDuration_no_P_witness :
    (("" : String) = "" ∨ 'P' ∉ ("" : String).data) ∧
    ParseDuration "" = ⟨0, none, some .ErrBadFormat⟩ ∧
    ParseDuration "1Y2W" = ⟨0, none, some .ErrBadFormat⟩ :=
  ⟨Or.inl rfl, ParseDuration_no_P "" (Or.inl rfl), ParseDuration_no_P "1Y2W" (Or.inr (by decide))⟩

/-- C8, as stated, fails: `P2WT3H` and `P1DP3W` are not of the form `P<digits>W`,
yet `ParseDuration` succeeds on them with a non-zero `Weeks` field, because
`week.MatchString` looks for the week pattern anywhere in the input. -/
theorem ParseDuration_week_whole_counterexample :
    ParseDuration "P2WT3H" = ⟨1209600 * Second, some ⟨0, 0, 2, 0, 0, 0, 0⟩, none⟩ ∧
    (¬ ∃ n, "P2WT3H".data = weekText n) ∧
    ParseDuration "P1DP3W" = ⟨1814400 * Second, some ⟨0, 0, 3, 0, 0, 0, 0⟩, none⟩ ∧
    (¬ ∃ n, isDigitRun n = true ∧ "P1DP3W".data = weekText n) := by
  refine ⟨by decide, ?_, by decide, ?_⟩
  · rintro ⟨n, hn⟩
    have := congrArg List.reverse hn
    simp [weekText] at this
  · rintro ⟨n, hrun, hn⟩
    have h1 : n = ['1', 'D', 'P', '3'] := by
      have := congrArg List.dropLast (congrArg List.tail hn)
      simp [weekText] at this
      exact this.symm
    subst h1
    exact absurd hrun (by decide)

/-- C8, amended: for every input, if `ParseDuration` succeeds and returns a
record with a non-zero `Weeks` field, then the input contains (possibly with
text before and after it) a `P` followed by one run of digits followed by `W`,
`Weeks` is the value of that run and the six other fields are 0. -/
theorem ParseDuration_weeks_nonzero (value : String) (r : Duration)
    (herr : (ParseDuration value).err = none) (hrec : (ParseDuration value).record = some r)
    (hw : r.Weeks ≠ 0) :
    ∃ pre n post, isDigitRun n = true ∧ value.data = pre ++ (weekText n ++ post) ∧
      r = ⟨0, 0, digitsVal n, 0, 0, 0, 0⟩ := by
  obtain ⟨r', h1, _, _, h2⟩ := ParseDuration_success value herr
  rw [h1] at hrec
  simp only [Option.some.injEq] at hrec
  subst hrec
  exact h2 hw

/-- Witness of C8, amended: the input `P1DP3W`. -/
theorem ParseDuration_weeks_nonzero_witness :
    (ParseDuration "P1DP3W").err = none ∧
    (ParseDuration "P1DP3W").record = some ⟨0, 0, 3, 0, 0, 0, 0⟩ ∧
    (∃ pre n post, isDigitRun n = true ∧ "P1DP3W".data = pre ++ (weekText n ++ post) ∧
      (⟨0, 0, 3, 0, 0, 0, 0⟩ : Duration) = ⟨0, 0, digitsVal n, 0, 0, 0, 0⟩) :=
  ⟨by decide, by decide,
    ParseDuration_weeks_nonzero "P1DP3W" ⟨0, 0, 3, 0, 0, 0, 0⟩ (by decide) (by decide) (by decide)⟩

/-- C9, as stated, fails: for `P293Y` the parse succeeds, the exact total of the
record is 9,240,048,000,000,000,000 ns, above the largest `time.Duration`, and
the returned elapsed time is the wrapped value, which is negative. -/
theorem ParseDuration_total_counterexample :
    ParseDuration "P293Y" = ⟨-9206696073709551616, some ⟨293, 0, 0, 0, 0, 0, 0⟩, none⟩ ∧
    Duration.total ⟨293, 0, 0, 0, 0, 0, 0⟩ = 9240048000000000000 ∧
    (ParseDuration "P293Y").elapsed ≠ Duration.total ⟨293, 0, 0, 0, 0, 0, 0⟩ ∧
    (ParseDuration "P293Y").elapsed < 0 := by
  decide

/-- C9, amended: whenever `ParseDuration` succeeds, `Months` is 0 and the
returned elapsed time is the exact sum of the record's fields at the fixed
rates (365 days a year, 7 days a week) reduced to the signed 64-bit range by
two's complement wrap-around; whenever that exact sum is at most the largest
`time.Duration`, the elapsed time equals it exactly and is not negative. -/
theorem ParseDuration_total (value : String) (herr : (ParseDuration value).err = none) :
    ∃ r, (ParseDuration value).record = some r ∧ r.Months = 0 ∧
      (ParseDuration value).elapsed = wrap64 r.total ∧
      (r.total ≤ maxDuration →
        (ParseDuration value).elapsed = r.total ∧ 0 ≤ (ParseDuration value).elapsed) := by
  obtain ⟨r, h1, hm, hpos, _⟩ := ParseDuration_success value herr
  refine ⟨r, by rw [h1], hm, by rw [h1], ?_⟩
  intro hle
  have : wrap64 r.total = r.total := by
    apply wrap64_of_range
    · omega
    · simp only [maxDuration] at hle; omega
  constructor
  · rw [h1]; exact this
  · rw [h1]; show 0 ≤ wrap64 r.total; rw [this]; exact hpos

/-- Witness of C9, amended: `P292Y` succeeds within the range. -/
theorem ParseDuration_total_witness :
    (ParseDuration "P292Y").err = none ∧
    ∃ r, (ParseDuration "P292Y").record = some r ∧ r.Months = 0 ∧
      (ParseDuration "P292Y").elapsed = wrap64 r.total ∧
      (r.total ≤ maxDuration →
        (ParseDuration "P292Y").elapsed = r.total ∧ 0 ≤ (ParseDuration "P292Y").elapsed) :=
  ⟨by decide, ParseDuration_total "P292Y" (by decide)⟩

/-- C10: no partial success.  For every input, `ParseDuration` returns either a
nil error and a non-nil record, or a non-nil error, a nil record and elapsed
time 0; a failure detected after some fields were accumulated (`ErrNoMonth`
after a year part, a conversion error on a later part) returns elapsed time 0
and no record. -/
theorem ParseDuration_no_partial (value : String) :
    (((ParseDuration value).err = none ∧ (ParseDuration value).record ≠ none) ∨
      ((ParseDuration value).err ≠ none ∧ (ParseDuration value).record = none ∧
        (ParseDuration value).elapsed = 0)) ∧
    ParseDuration "P1Y2M" = ⟨0, none, some .ErrNoMonth⟩ ∧
    ParseDuration "P1Y99999999999999999999D" =
      ⟨0, none, some (.ErrRange "99999999999999999999".data)⟩ := by
  refine ⟨?_, by decide, by decide⟩
  rcases ParseDuration_cases value with ⟨_, h1⟩ | ⟨pre, n, post, hn, hv, h1⟩ |
      ⟨_, oy, omo, od, oh, omi, os, _, _, _, _, _, _, h1⟩
  · right; rw [h1]; simp [failWith]
  · rcases weekResult_cases n with ⟨e, h2⟩ | h2
    · right; rw [h1, h2]; simp [failWith]
    · left; rw [h1, h2]; simp
  · rcases fieldsResult_cases oy omo od oh omi os with ⟨e, h2⟩ | ⟨y, d, hh, mi, sec, _, _, _, _, _, h2⟩
    · right; rw [h1, h2]; simp [failWith]
    · left; rw [h1, h2]; simp

/-! ## Basic facts: rounding to `float64` -/

theorem pow2_eq (k : Int) : pow2 k = (2 : ℚ) ^ k := by
  by_cases h : 0 ≤ k
  · obtain ⟨n, rfl⟩ := Int.eq_ofNat_of_zero_le h
    simp [pow2]
  · obtain ⟨n, rfl⟩ : ∃ n : Nat, k = -(n : Int) := ⟨(-k).toNat, by omega⟩
    simp [pow2, h, zpow_neg]

theorem pow2_pos (k : Int) : 0 < pow2 k := by
  rw [pow2_eq]; positivity

theorem pow2_add (a b : Int) : pow2 (a + b) = pow2 a * pow2 b := by
  simp only [pow2_eq]
  exact zpow_add₀ (by norm_num) a b

theorem pow2_mono (a b : Int) (h : a ≤ b) : pow2 a ≤ pow2 b := by
  simp only [pow2_eq]
  exact zpow_le_zpow_right₀ (by norm_num) h

theorem pow2_natCast (n : Nat) : pow2 (n : Int) = ((2 ^ n : Nat) : ℚ) := by
  simp [pow2]

theorem log2Aux_spec (fuel : Nat) : ∀ n, n ≤ fuel → 0 < n →
    2 ^ log2Aux fuel n ≤ n ∧ n < 2 ^ (log2Aux fuel n + 1) := by
  induction fuel with
  | zero => intro n h1 h2; omega
  | succ fuel ih =>
    intro n h1 h2
    unfold log2Aux
    split
    · simp; omega
    · have := ih (n / 2) (by omega) (by omega)
      obtain ⟨h3, h4⟩ := this
      constructor
      · rw [pow_succ]; omega
      · rw [pow_succ]; omega

theorem log2_spec (n : Nat) (h : 0 < n) : 2 ^ log2 n ≤ n ∧ n < 2 ^ (log2 n + 1) :=
  log2Aux_spec n n le_rfl h

theorem pow2_ilog2_le (a : ℚ) (ha : 0 < a) : pow2 (ilog2 a) ≤ a := by
  unfold ilog2
  simp only
  split
  · assumption
  · have hnum : 0 < a.num := Rat.num_pos.2 ha
    have hN : 0 < a.num.natAbs := by omega
    obtain ⟨h1, _⟩ := log2_spec a.num.natAbs hN
    obtain ⟨_, h2⟩ := log2_spec a.den a.den_pos
    have e1 : pow2 ((log2 a.num.natAbs : Int) - (log2 a.den : Int) - 1) * pow2 ((log2 a.den + 1 : Nat) : Int)
        = pow2 ((log2 a.num.natAbs : Nat) : Int) := by
      rw [← pow2_add]; congr 1; push_cast; ring
    rw [pow2_natCast, pow2_natCast] at e1
    have hden : (0 : ℚ) < a.den := by exact_mod_cast a.den_pos
    have hp : (0 : ℚ) < ((2 ^ (log2 a.den + 1) : Nat) : ℚ) := by positivity
    set x := pow2 ((log2 a.num.natAbs : Int) - (log2 a.den : Int) - 1) with hx
    have hxpos : 0 < x := pow2_pos _
    have ha' : a = (a.num.natAbs : ℚ) / (a.den : ℚ) := by
      have h4 : ((a.num.natAbs : Nat) : ℚ) = (a.num : ℚ) := by
        rw [← Int.cast_natCast, Int.natAbs_of_nonneg hnum.le]
      rw [h4]
      exact (Rat.num_div_den a).symm
    rw [ha', le_div_iff₀ hden]
    have h1' : ((2 ^ log2 a.num.natAbs : Nat) : ℚ) ≤ (a.num.natAbs : ℚ) := by exact_mod_cast h1
    have h2' : (a.den : ℚ) ≤ ((2 ^ (log2 a.den + 1) : Nat) : ℚ) := by exact_mod_cast h2.le
    calc x * (a.den : ℚ) ≤ x * ((2 ^ (log2 a.den + 1) : Nat) : ℚ) :=
          mul_le_mul_of_nonneg_left h2' hxpos.le
      _ = ((2 ^ log2 a.num.natAbs : Nat) : ℚ) := e1
      _ ≤ _ := h1'

theorem lt_pow2_ilog2_succ (a : ℚ) (ha : 0 < a) : a < pow2 (ilog2 a + 1) := by
  unfold ilog2
  simp only
  split
  · have hnum : 0 < a.num := Rat.num_pos.2 ha
    have hN : 0 < a.num.natAbs := by omega
    obtain ⟨_, h1⟩ := log2_spec a.num.natAbs hN
    obtain ⟨h2, _⟩ := log2_spec a.den a.den_pos
    have e1 : pow2 ((log2 a.num.natAbs : Int) - (log2 a.den : Int) + 1) * pow2 ((log2 a.den : Nat) : Int)
        = pow2 ((log2 a.num.natAbs + 1 : Nat) : Int) := by
      rw [← pow2_add]; congr 1; push_cast; ring
    rw [pow2_natCast, pow2_natCast] at e1
    have hden : (0 : ℚ) < a.den := by exact_mod_cast a.den_pos
    set x := pow2 ((log2 a.num.natAbs : Int) - (log2 a.den : Int) + 1) with hx
    have hxpos : 0 < x := pow2_pos _
    have ha' : a = (a.num.natAbs : ℚ) / (a.den : ℚ) := by
      have h4 : ((a.num.natAbs : Nat) : ℚ) = (a.num : ℚ) := by
        rw [← Int.cast_natCast, Int.natAbs_of_nonneg hnum.le]
      rw [h4]
      exact (Rat.num_div_den a).symm
    rw [ha', div_lt_iff₀ hden]
    have h1' : (a.num.natAbs : ℚ) < ((2 ^ (log2 a.num.natAbs + 1) : Nat) : ℚ) := by exact_mod_cast h1
    have h2' : ((2 ^ log2 a.den : Nat) : ℚ) ≤ (a.den : ℚ) := by exact_mod_cast h2
    calc (a.num.natAbs : ℚ) < ((2 ^ (log2 a.num.natAbs + 1) : Nat) : ℚ) := h1'
      _ = x * ((2 ^ log2 a.den : Nat) : ℚ) := e1.symm
      _ ≤ x * (a.den : ℚ) := mul_le_mul_of_nonneg_left h2' hxpos.le
  · rename_i h
    have : (log2 a.num.natAbs : Int) - (log2 a.den : Int) - 1 + 1 =
        (log2 a.num.natAbs : Int) - (log2 a.den : Int) := by ring
    rw [this]
    exact lt_of_not_le h

/-- The model of `float64` rounding on known doubles: `0.1`, a tie at `2 ^ 53`
and the smallest subnormal. -/
theorem rnd64_examples :
    rnd64 (1 / 10) = 3602879701896397 / 36028797018963968 ∧
    rnd64 9007199254740993 = 9007199254740992 ∧
    rnd64 9007199254740995 = 9007199254740996 ∧
    rnd64 (3 * pow2 (-1075)) = 2 * pow2 (-1074) ∧
    rnd64 (1 * pow2 (-1075)) = 0 := by
  decide!

theorem roundEven_ge (x : ℚ) (N : Int) (h : (N : ℚ) ≤ x) : N ≤ roundEven x := by
  have h1 : N ≤ ⌊x⌋ := Int.le_floor.2 h
  unfold roundEven
  simp only
  split
  · exact h1
  · split
    · omega
    · split <;> omega

theorem roundEven_le (x : ℚ) (N : Int) (h : x ≤ (N : ℚ)) : roundEven x ≤ N := by
  have h1 : ⌊x⌋ ≤ N := Int.cast_le.1 (le_trans (Int.floor_le x) h)
  rcases lt_or_eq_of_le h1 with h2 | h2
  · unfold roundEven
    simp only
    split
    · omega
    · split
      · omega
      · split <;> omega
  · have hx : x = (⌊x⌋ : ℚ) := le_antisymm (by rw [h2]; exact h) (Int.floor_le x)
    unfold roundEven
    simp only
    have : x - (⌊x⌋ : ℚ) < 1 / 2 := by rw [← hx]; norm_num
    rw [if_pos this]
    omega

theorem rnd64_zero : rnd64 0 = 0 := by
  simp [rnd64]

theorem rnd64_of_pos (q : ℚ) (hq : 0 < q) :
    rnd64 q = (roundEven (q / pow2 (max (ilog2 q) (-1022) - 52)) : ℚ) *
      pow2 (max (ilog2 q) (-1022) - 52) := by
  unfold rnd64
  simp [hq.ne', abs_of_pos hq, not_lt.2 hq.le]

theorem rnd64_neg (q : ℚ) : rnd64 (-q) = -rnd64 q := by
  rcases lt_trichotomy q 0 with h | h | h
  · have h1 : ¬ (-q < 0) := by linarith
    have h2 : -q ≠ 0 := by linarith
    unfold rnd64
    simp [h.ne, h, h1, h2]
  · subst h; simp [rnd64_zero]
  · have h1 : ¬ (q < 0) := by linarith
    have h2 : -q < 0 := by linarith
    unfold rnd64
    simp [h.ne', h1, h2, h2.ne]

theorem rnd64_nonneg (q : ℚ) (hq : 0 ≤ q) : 0 ≤ rnd64 q := by
  rcases eq_or_lt_of_le hq with h | h
  · rw [← h, rnd64_zero]
  · rw [rnd64_of_pos q h]
    have hu := pow2_pos (max (ilog2 q) (-1022) - 52)
    have : (0 : Int) ≤ roundEven (q / pow2 (max (ilog2 q) (-1022) - 52)) :=
      roundEven_ge _ 0 (by simpa using (div_pos h hu).le)
    exact mul_nonneg (by exact_mod_cast this) hu.le

theorem rnd64_nonpos (q : ℚ) (hq : q ≤ 0) : rnd64 q ≤ 0 := by
  have := rnd64_nonneg (-q) (by linarith)
  rw [rnd64_neg] at this
  linarith

/-- A float below `q` stays below the rounding of `q`: floats are the numbers
`m * 2 ^ j` with `m < 2 ^ 53` and `j ≥ -1074`. -/
theorem rnd64_ge (q : ℚ) (hq : 0 < q) (m : Nat) (j : Int) (hm : m < 2 ^ 53) (hj : -1074 ≤ j)
    (h : (m : ℚ) * pow2 j ≤ q) : (m : ℚ) * pow2 j ≤ rnd64 q := by
  rw [rnd64_of_pos q hq]
  set e := max (ilog2 q) (-1022) with he
  have hu := pow2_pos (e - 52)
  by_cases hc : e - 52 ≤ j
  · obtain ⟨n, hn⟩ : ∃ n : Nat, j = (e - 52) + (n : Int) := ⟨(j - (e - 52)).toNat, by omega⟩
    have hpj : pow2 j = ((2 ^ n : Nat) : ℚ) * pow2 (e - 52) := by
      rw [hn, pow2_add, pow2_natCast, mul_comm]
    have hmj : (m : ℚ) * pow2 j = (((m * 2 ^ n : Nat) : Int) : ℚ) * pow2 (e - 52) := by
      rw [hpj]; push_cast; ring
    have hr : ((m * 2 ^ n : Nat) : Int) ≤ roundEven (q / pow2 (e - 52)) := by
      apply roundEven_ge
      rw [le_div_iff₀ hu, ← hmj]
      exact h
    rw [hmj]
    exact mul_le_mul_of_nonneg_right (by exact_mod_cast hr) hu.le
  · have hee : e = ilog2 q := by omega
    have hle : pow2 e ≤ q := by rw [hee]; exact pow2_ilog2_le q hq
    have hpe : pow2 e = (((2 ^ 52 : Nat) : Int) : ℚ) * pow2 (e - 52) := by
      have h1 := pow2_add ((52 : Nat) : Int) (e - 52)
      have h2 : ((52 : Nat) : Int) + (e - 52) = e := by push_cast; ring
      rw [h2, pow2_natCast] at h1
      rw [h1, Int.cast_natCast]
    have hr : ((2 ^ 52 : Nat) : Int) ≤ roundEven (q / pow2 (e - 52)) := by
      apply roundEven_ge
      rw [le_div_iff₀ hu, ← hpe]
      exact hle
    have h53 : (m : ℚ) * pow2 j ≤ pow2 e := by
      have h1 : pow2 (((53 : Nat) : Int) + j) ≤ pow2 e := pow2_mono _ _ (by push_cast; omega)
      rw [pow2_add, pow2_natCast] at h1
      have h2 : (m : ℚ) ≤ ((2 ^ 53 : Nat) : ℚ) := by exact_mod_cast hm.le
      exact le_trans (mul_le_mul_of_nonneg_right h2 (pow2_pos j).le) h1
    calc (m : ℚ) * pow2 j ≤ pow2 e := h53
      _ = (((2 ^ 52 : Nat) : Int) : ℚ) * pow2 (e - 52) := hpe
      _ ≤ _ := mul_le_mul_of_nonneg_right (by exact_mod_cast hr) hu.le

/-- A float above `q` stays above the rounding of `q`. -/
theorem rnd64_le (q : ℚ) (hq : 0 < q) (m : Nat) (j : Int) (hm : m < 2 ^ 53) (hj : -1074 ≤ j)
    (h : q ≤ (m : ℚ) * pow2 j) : rnd64 q ≤ (m : ℚ) * pow2 j := by
  rw [rnd64_of_pos q hq]
  set e := max (ilog2 q) (-1022) with he
  have hu := pow2_pos (e - 52)
  by_cases hc : e - 52 ≤ j
  · obtain ⟨n, hn⟩ : ∃ n : Nat, j = (e - 52) + (n : Int) := ⟨(j - (e - 52)).toNat, by omega⟩
    have hpj : pow2 j = ((2 ^ n : Nat) : ℚ) * pow2 (e - 52) := by
      rw [hn, pow2_add, pow2_natCast, mul_comm]
    have hmj : (m : ℚ) * pow2 j = (((m * 2 ^ n : Nat) : Int) : ℚ) * pow2 (e - 52) := by
      rw [hpj]; push_cast; ring
    have hr : roundEven (q / pow2 (e - 52)) ≤ ((m * 2 ^ n : Nat) : Int) := by
      apply roundEven_le
      rw [div_le_iff₀ hu, ← hmj]
      exact h
    rw [hmj]
    exact mul_le_mul_of_nonneg_right (by exact_mod_cast hr) hu.le
  · exfalso
    have hee : e = ilog2 q := by omega
    have hle : pow2 e ≤ q := by rw [hee]; exact pow2_ilog2_le q hq
    have h1 : pow2 (((53 : Nat) : Int) + j) ≤ pow2 e := pow2_mono _ _ (by push_cast; omega)
    rw [pow2_add, pow2_natCast] at h1
    have h2 : (m : ℚ) < ((2 ^ 53 : Nat) : ℚ) := by exact_mod_cast hm
    have h3 : (m : ℚ) * pow2 j < ((2 ^ 53 : Nat) : ℚ) * pow2 j :=
      mul_lt_mul_of_pos_right h2 (pow2_pos j)
    linarith

/-- An integer of magnitude below `2 ^ 53` is a float. -/
theorem rnd64_natCast (n : Nat) (hn : n < 2 ^ 53) : rnd64 (n : ℚ) = (n : ℚ) := by
  rcases Nat.eq_zero_or_pos n with h | h
  · subst h; simp [rnd64_zero]
  · have hq : (0 : ℚ) < (n : ℚ) := by exact_mod_cast h
    have e0 : pow2 0 = 1 := by simp [pow2]
    have h1 := rnd64_ge (n : ℚ) hq n 0 hn (by decide) (by rw [e0]; simp)
    have h2 := rnd64_le (n : ℚ) hq n 0 hn (by decide) (by rw [e0]; simp)
    rw [e0, mul_one] at h1 h2
    exact le_antisymm h2 h1

theorem pow2_neg_natCast (p : Nat) : pow2 (-(p : Int)) = 1 / ((2 ^ p : Nat) : ℚ) := by
  have h := pow2_add (-(p : Int)) (p : Int)
  have h0 : pow2 (-(p : Int) + (p : Int)) = 1 := by simp [pow2]
  rw [h0, pow2_natCast] at h
  have hp : (0 : ℚ) < ((2 ^ p : Nat) : ℚ) := by positivity
  rw [eq_div_iff hp.ne']
  exact h.symm

/-- The float computation `float64(hi) + float64(lo)/c` of the three methods
`Hours`, `Minutes` and `Seconds` stays in `[hi, hi + 1)` when the quotient
`lo / c` is at most `1 - 2 ^ (-p)` and `hi + 1` has at most `53 - p` bits. -/
theorem float_split (hi lo c p : Nat) (hc : 0 < c) (hc53 : c < 2 ^ 53) (hlo : lo < 2 ^ 53)
    (hhi : (hi + 1) * 2 ^ p ≤ 2 ^ 53) (hfrac : lo * 2 ^ p ≤ c * (2 ^ p - 1)) :
    (hi : ℚ) ≤ rnd64 (rnd64 (hi : ℚ) + rnd64 (rnd64 (lo : ℚ) / rnd64 (c : ℚ))) ∧
    rnd64 (rnd64 (hi : ℚ) + rnd64 (rnd64 (lo : ℚ) / rnd64 (c : ℚ))) < (hi : ℚ) + 1 := by
  have hP1 : 1 ≤ 2 ^ p := Nat.one_le_two_pow
  have hP53 : 2 ^ p ≤ 2 ^ 53 := by nlinarith
  have hp : p ≤ 53 := (Nat.pow_le_pow_iff_right (by norm_num)).1 hP53
  have hhi53 : hi < 2 ^ 53 := by nlinarith
  rw [rnd64_natCast hi hhi53, rnd64_natCast lo hlo, rnd64_natCast c hc53]
  have hcq : (0 : ℚ) < (c : ℚ) := by exact_mod_cast hc
  have hPq : (0 : ℚ) < ((2 ^ p : Nat) : ℚ) := by positivity
  have hsub : (((2 ^ p - 1 : Nat) : ℚ)) = ((2 ^ p : Nat) : ℚ) - 1 := by
    rw [Nat.cast_sub hP1]; simp
  -- the rounded quotient
  have hfq : (lo : ℚ) / (c : ℚ) ≤ ((2 ^ p - 1 : Nat) : ℚ) * pow2 (-(p : Int)) := by
    rw [pow2_neg_natCast, div_le_iff₀ hcq]
    have : ((lo * 2 ^ p : Nat) : ℚ) ≤ ((c * (2 ^ p - 1) : Nat) : ℚ) := by exact_mod_cast hfrac
    rw [Nat.cast_mul, Nat.cast_mul] at this
    rw [mul_one_div, div_mul_eq_mul_div, le_div_iff₀ hPq]
    linarith
  have hf0 : 0 ≤ rnd64 ((lo : ℚ) / (c : ℚ)) := rnd64_nonneg _ (by positivity)
  have hf1 : rnd64 ((lo : ℚ) / (c : ℚ)) ≤ ((2 ^ p - 1 : Nat) : ℚ) * pow2 (-(p : Int)) := by
    rcases Nat.eq_zero_or_pos lo with h | h
    · subst h
      simp only [Nat.cast_zero, zero_div, rnd64_zero]
      exact mul_nonneg (Nat.cast_nonneg _) (pow2_pos _).le
    · have hq : (0 : ℚ) < (lo : ℚ) / (c : ℚ) := div_pos (by exact_mod_cast h) hcq
      exact rnd64_le _ hq _ _ (by omega) (by omega) hfq
  set fr := rnd64 ((lo : ℚ) / (c : ℚ)) with hfr
  have hsum0 : (hi : ℚ) ≤ (hi : ℚ) + fr := by linarith
  have hnn : (0 : ℚ) ≤ (hi : ℚ) := Nat.cast_nonneg _
  have e0 : pow2 0 = 1 := by simp [pow2]
  have hm : (hi + 1) * 2 ^ p - 1 < 2 ^ 53 := by omega
  have hmq : (((hi + 1) * 2 ^ p - 1 : Nat) : ℚ) * pow2 (-(p : Int)) =
      (hi : ℚ) + ((2 ^ p - 1 : Nat) : ℚ) * pow2 (-(p : Int)) := by
    have h1 : 1 ≤ (hi + 1) * 2 ^ p := by nlinarith
    rw [Nat.cast_sub h1, hsub, pow2_neg_natCast]
    push_cast
    field_simp
    ring
  have hlt : (hi : ℚ) + ((2 ^ p - 1 : Nat) : ℚ) * pow2 (-(p : Int)) < (hi : ℚ) + 1 := by
    rw [hsub, pow2_neg_natCast]
    have : (((2 ^ p : Nat) : ℚ) - 1) * (1 / ((2 ^ p : Nat) : ℚ)) < 1 := by
      rw [mul_one_div, div_lt_one hPq]; linarith
    linarith
  rcases eq_or_lt_of_le (add_nonneg hnn hf0) with h | h
  · rw [← h, rnd64_zero]
    constructor <;> linarith
  · constructor
    · have := rnd64_ge _ h hi 0 hhi53 (by decide) (by rw [e0, mul_one]; exact hsum0)
      rwa [e0, mul_one] at this
    · have := rnd64_le _ h ((hi + 1) * 2 ^ p - 1) (-(p : Int)) hm (by omega)
        (by rw [hmq]; linarith)
      rw [hmq] at this
      linarith

theorem toInt_of_mem (x : ℚ) (n : Nat) (h1 : (n : ℚ) ≤ x) (h2 : x < (n : ℚ) + 1) :
    toInt x = (n : Int) := by
  have h0 : (0 : ℚ) ≤ x := le_trans (Nat.cast_nonneg n) h1
  unfold toInt
  rw [if_pos h0, Int.floor_eq_iff]
  exact ⟨by exact_mod_cast h1, by exact_mod_cast h2⟩

/-! ## The three float methods on whole seconds -/

theorem Hours_whole (t : Nat) (ht : (t : Int) * Second ≤ maxDuration) :
    toInt (time.Duration.Hours ((t : Int) * Second)) = ((t / 3600 : Nat) : Int) := by
  simp only [maxDuration, Second] at ht
  have e1 : Int.tdiv ((t : Int) * Second) Hour = ((t / 3600 : Nat) : Int) := by
    rw [Int.tdiv_eq_ediv (by simp only [Second]; omega) (by decide)]
    simp only [Hour, Minute, Second]; omega
  have e2 : Int.tmod ((t : Int) * Second) Hour = ((t % 3600 * 1000000000 : Nat) : Int) := by
    rw [Int.tmod_eq_emod (by simp only [Second]; omega) (by decide)]
    simp only [Hour, Minute, Second]; omega
  have c : (60 * 60 * 1000000000 : ℚ) = ((3600000000000 : Nat) : ℚ) := by norm_num
  unfold time.Duration.Hours
  simp only [e1, e2, Int.cast_natCast, c]
  have hm : t % 3600 < 3600 := Nat.mod_lt _ (by decide)
  obtain ⟨a, b⟩ := float_split (t / 3600) (t % 3600 * 1000000000) 3600000000000 12
    (by decide) (by decide) (by omega) (by omega) (by omega)
  exact toInt_of_mem _ _ a b

theorem Minutes_whole (t : Nat) (ht : (t : Int) * Second ≤ maxDuration) :
    toInt (time.Duration.Minutes ((t : Int) * Second)) = ((t / 60 : Nat) : Int) := by
  simp only [maxDuration, Second] at ht
  have e1 : Int.tdiv ((t : Int) * Second) Minute = ((t / 60 : Nat) : Int) := by
    rw [Int.tdiv_eq_ediv (by simp only [Second]; omega) (by decide)]
    simp only [Minute, Second]; omega
  have e2 : Int.tmod ((t : Int) * Second) Minute = ((t % 60 * 1000000000 : Nat) : Int) := by
    rw [Int.tmod_eq_emod (by simp only [Second]; omega) (by decide)]
    simp only [Minute, Second]; omega
  have c : (60 * 1000000000 : ℚ) = ((60000000000 : Nat) : ℚ) := by norm_num
  unfold time.Duration.Minutes
  simp only [e1, e2, Int.cast_natCast, c]
  have hm : t % 60 < 60 := Nat.mod_lt _ (by decide)
  obtain ⟨a, b⟩ := float_split (t / 60) (t % 60 * 1000000000) 60000000000 6
    (by decide) (by decide) (by omega) (by omega) (by omega)
  exact toInt_of_mem _ _ a b

theorem Seconds_whole (t : Nat) (ht : (t : Int) * Second ≤ maxDuration) :
    (t : ℚ) ≤ time.Duration.Seconds ((t : Int) * Second) ∧
    toInt (time.Duration.Seconds ((t : Int) * Second)) = (t : Int) := by
  simp only [maxDuration, Second] at ht
  have e1 : Int.tdiv ((t : Int) * Second) Second = (t : Int) := by
    rw [Int.tdiv_eq_ediv (by simp only [Second]; omega) (by decide)]
    simp only [Second]; omega
  have e2 : Int.tmod ((t : Int) * Second) Second = ((0 : Nat) : Int) := by
    rw [Int.tmod_eq_emod (by simp only [Second]; omega) (by decide)]
    simp only [Second]; omega
  have c : (1000000000 : ℚ) = ((1000000000 : Nat) : ℚ) := by norm_num
  unfold time.Duration.Seconds
  simp only [e1, e2, Int.cast_natCast]
  rw [c]
  obtain ⟨a, b⟩ := float_split t 0 1000000000 1
    (by decide) (by decide) (by decide) (by omega) (by omega)
  exact ⟨a, toInt_of_mem _ _ a b⟩

theorem Seconds_nonpos (d : Int) (hd : d ≤ 0) : time.Duration.Seconds d ≤ 0 := by
  unfold time.Duration.Seconds
  simp only
  apply rnd64_nonpos
  obtain ⟨n, rfl⟩ : ∃ n : Nat, d = -(n : Int) := ⟨(-d).toNat, by omega⟩
  have h1 : Int.tdiv (-(n : Int)) Second ≤ 0 := by
    rw [Int.neg_tdiv]
    have := Int.tdiv_nonneg (Int.ofNat_nonneg n) (by decide : (0 : Int) ≤ Second)
    omega
  have h2 : Int.tmod (-(n : Int)) Second ≤ 0 := by
    have := Int.tmod_nonneg Second (Int.ofNat_nonneg n)
    rw [Int.tmod_def] at this ⊢
    rw [Int.neg_tdiv, Int.mul_neg]
    linarith
  have a1 : rnd64 ((Int.tdiv (-(n : Int)) Second : Int) : ℚ) ≤ 0 :=
    rnd64_nonpos _ (by exact_mod_cast h1)
  have a2 : rnd64 ((Int.tmod (-(n : Int)) Second : Int) : ℚ) ≤ 0 :=
    rnd64_nonpos _ (by exact_mod_cast h2)
  have a3 : 0 ≤ rnd64 (1000000000 : ℚ) := rnd64_nonneg _ (by norm_num)
  have a4 : rnd64 (rnd64 ((Int.tmod (-(n : Int)) Second : Int) : ℚ) / rnd64 1000000000) ≤ 0 :=
    rnd64_nonpos _ (div_nonpos_of_nonpos_of_nonneg a2 a3)
  linarith

/-! ## Decimal digits -/

theorem digitsVal_append_singleton (ds : List Char) (c : Char) :
    digitsVal (ds ++ [c]) = digitsVal ds * 10 + (c.toNat - 48) := by
  simp [digitsVal, List.foldl_append]

theorem digit_char (k : Nat) (hk : k < 10) :
    (Char.ofNat (48 + k)).isDigit = true ∧ (Char.ofNat (48 + k)).toNat - 48 = k := by
  interval_cases k <;> decide

theorem decimalAux_spec (fuel : Nat) : ∀ n acc, n < fuel →
    ∃ ds, decimalAux fuel n acc = ds ++ acc ∧ isDigitRun ds = true ∧ digitsVal ds = n := by
  induction fuel with
  | zero => intro n acc h; omega
  | succ fuel ih =>
    intro n acc h
    unfold decimalAux
    split
    · rename_i h10
      obtain ⟨d1, d2⟩ := digit_char n h10
      refine ⟨[Char.ofNat (48 + n)], rfl, ?_, ?_⟩
      · simp [isDigitRun, d1]
      · simp [digitsVal, d2]
    · rename_i h10
      obtain ⟨ds, e, hrun, hval⟩ := ih (n / 10) (Char.ofNat (48 + n % 10) :: acc) (by omega)
      obtain ⟨d1, d2⟩ := digit_char (n % 10) (Nat.mod_lt _ (by decide))
      refine ⟨ds ++ [Char.ofNat (48 + n % 10)], by rw [e]; simp, ?_, ?_⟩
      · rw [isDigitRun_iff] at hrun ⊢
        refine ⟨by simp, ?_⟩
        intro c hc
        rcases List.mem_append.1 hc with h' | h'
        · exact hrun.2 c h'
        · rw [List.mem_singleton] at h'; rw [h']; exact d1
      · rw [digitsVal_append_singleton, hval, d2]; omega

theorem decimal_spec (n : Nat) : isDigitRun (decimal n) = true ∧ digitsVal (decimal n) = n := by
  obtain ⟨ds, e, hrun, hval⟩ := decimalAux_spec (n + 1) n [] (by omega)
  unfold decimal
  rw [e, List.append_nil]
  exact ⟨hrun, hval⟩

theorem fmtInt_natCast (n : Nat) : fmtInt (n : Int) = decimal n := by
  unfold fmtInt
  have : ¬ ((n : Int) < 0) := by omega
  simp [this]

/-! ## The formatter -/

/-- The output of the formatter on a positive whole number of seconds, with the
three components as natural numbers. -/
theorem FormatDuration_whole (t : Nat) (hpos : 0 < t) (hfit : (t : Int) * Second ≤ maxDuration) :
    FormatDuration ((t : Int) * Second) =
      String.mk (['P', 'T'] ++
        (if 0 < t / 3600 then decimal (t / 3600) ++ ['H'] else []) ++
        (if 0 < t / 60 % 60 then decimal (t / 60 % 60) ++ ['M'] else []) ++
        (if 0 < t % 60 then decimal (t % 60) ++ ['S'] else [])) := by
  obtain ⟨hs1, hs2⟩ := Seconds_whole t hfit
  have hsec : ¬ time.Duration.Seconds ((t : Int) * Second) ≤ 0 := by
    have : (0 : ℚ) < (t : ℚ) := by exact_mod_cast hpos
    linarith
  have em : ((t / 60 : Nat) : Int) - ((t / 3600 : Nat) : Int) * 60 = ((t / 60 % 60 : Nat) : Int) := by
    omega
  have es : (t : Int) - (((t / 3600 : Nat) : Int) * 3600 + ((t / 60 % 60 : Nat) : Int) * 60) =
      ((t % 60 : Nat) : Int) := by
    omega
  unfold FormatDuration
  rw [if_neg hsec]
  simp only [Hours_whole t hfit, Minutes_whole t hfit, hs2, em, es, fmtInt_natCast, gt_iff_lt,
    Nat.cast_pos]
  by_cases h1 : 0 < t / 3600 <;> by_cases h2 : 0 < t / 60 % 60 <;> by_cases h3 : 0 < t % 60 <;>
    simp [h1, h2, h3]

/-- C4: for every elapsed time that is a positive whole number `t` of seconds,
`FormatDuration` returns `PT` followed by `<h>H` only if `h > 0`, then `<m>M`
only if `m > 0`, then `<s>S` only if `s > 0`, in decimal, where
`h = floor(t/3600)`, `m = floor(t/60) - 60*h` and `s = t - (3600*h + 60*m)`; no
other component is emitted and hours are unbounded (3661 s gives `PT1H1M1S`,
90 s gives `PT1M30S`, 30 hours give `PT30H`). -/
theorem FormatDuration_whole_seconds (t : Nat) (hpos : 0 < t)
    (hfit : (t : Int) * Second ≤ maxDuration) :
    (let h : Int := (t : Int) / 3600
     let m : Int := (t : Int) / 60 - 60 * h
     let s : Int := (t : Int) - (3600 * h + 60 * m)
     FormatDuration ((t : Int) * Second) =
      String.mk (['P', 'T'] ++
        (if 0 < h then fmtInt h ++ ['H'] else []) ++
        (if 0 < m then fmtInt m ++ ['M'] else []) ++
        (if 0 < s then fmtInt s ++ ['S'] else []))) ∧
    FormatDuration (3661 * Second) = "PT1H1M1S" ∧
    FormatDuration (90 * Second) = "PT1M30S" ∧
    FormatDuration (30 * Hour) = "PT30H" := by
  refine ⟨?_, by decide!, by decide!, by decide!⟩
  have eh : (t : Int) / 3600 = ((t / 3600 : Nat) : Int) := by omega
  have em : (t : Int) / 60 - 60 * ((t / 3600 : Nat) : Int) = ((t / 60 % 60 : Nat) : Int) := by
    omega
  have es : (t : Int) - (3600 * ((t / 3600 : Nat) : Int) + 60 * ((t / 60 % 60 : Nat) : Int)) =
      ((t % 60 : Nat) : Int) := by
    omega
  simp only [eh, em, es, fmtInt_natCast, Nat.cast_pos]
  exact FormatDuration_whole t hpos hfit

/-- Witness of C4: 3661 seconds. -/
theorem FormatDuration_whole_seconds_witness :
    0 < 3661 ∧ ((3661 : Nat) : Int) * Second ≤ maxDuration ∧
    FormatDuration (((3661 : Nat) : Int) * Second) =
      String.mk (['P', 'T'] ++ (fmtInt 1 ++ ['H']) ++ (fmtInt 1 ++ ['M']) ++ (fmtInt 1 ++ ['S'])) :=
  ⟨by decide, by decide,
    (FormatDuration_whole_seconds 3661 (by decide) (by decide)).1⟩

/-- C5: for every elapsed time `d` that is zero or negative, `FormatDuration`
returns exactly the string `PT0S`. -/
theorem FormatDuration_nonpos (d : Int) (hd : d ≤ 0) : FormatDuration d = "PT0S" := by
  unfold FormatDuration
  rw [if_pos (Seconds_nonpos d hd)]

/-- Witness of C5: zero and a negative duration. -/
theorem FormatDuration_nonpos_witness :
    (0 : Int) ≤ 0 ∧ FormatDuration 0 = "PT0S" ∧ FormatDuration (-1500000000) = "PT0S" :=
  ⟨le_rfl, FormatDuration_nonpos 0 le_rfl, FormatDuration_nonpos (-1500000000) (by decide)⟩

/-! ## Round trip -/

theorem runOk_optDecimal (n : Nat) :
    runOk (if 0 < n then some (decimal n) else none) = true := by
  split
  · exact (decimal_spec n).1
  · rfl

theorem fieldValue_optDecimal (n : Nat) (hn : n ≤ maxInt) :
    fieldValue (if 0 < n then some (decimal n) else none) = .ok (n : Int) := by
  split
  · simp [fieldValue, (decimal_spec n).2, hn]
  · have : n = 0 := by omega
    subst this
    rfl

theorem partText_optDecimal (n : Nat) (c : Char) :
    partText (if 0 < n then some (decimal n) else none) c =
      if 0 < n then decimal n ++ [c] else [] := by
  split <;> rfl

/-- C6: round trip.  For every non-negative elapsed time that is a whole number
`t` of seconds, `ParseDuration(FormatDuration(d))` succeeds and returns elapsed
time exactly `d` (also for `d = 0`, through `PT0S`), and the record holds in
`Hours`, `Minutes` and `Seconds` the components `h = floor(t/3600)`,
`m = floor(t/60) - 60*h` and `s = t - (3600*h + 60*m)` that `FormatDuration`
prints, with the four other fields 0. -/
theorem ParseDuration_FormatDuration (t : Nat) (hfit : (t : Int) * Second ≤ maxDuration) :
    let h : Int := (t : Int) / 3600
    let m : Int := (t : Int) / 60 - 60 * h
    let s : Int := (t : Int) - (3600 * h + 60 * m)
    ParseDuration (FormatDuration ((t : Int) * Second)) =
      ⟨(t : Int) * Second, some ⟨0, 0, 0, 0, h, m, s⟩, none⟩ := by
  have eh : (t : Int) / 3600 = ((t / 3600 : Nat) : Int) := by omega
  have em : (t : Int) / 60 - 60 * ((t / 3600 : Nat) : Int) = ((t / 60 % 60 : Nat) : Int) := by
    omega
  have es : (t : Int) - (3600 * ((t / 3600 : Nat) : Int) + 60 * ((t / 60 % 60 : Nat) : Int)) =
      ((t % 60 : Nat) : Int) := by
    omega
  simp only [eh, em, es]
  rcases Nat.eq_zero_or_pos t with h0 | hpos
  · subst h0
    have : FormatDuration (((0 : Nat) : Int) * Second) = "PT0S" := by
      unfold FormatDuration
      rw [if_pos (Seconds_nonpos _ (by decide))]
    rw [this]
    decide
  · have hb : t ≤ 9223372036 := by
      simp only [maxDuration, Second] at hfit; omega
    have hmax : maxInt = 9223372036854775807 := by decide
    rw [FormatDuration_whole t hpos hfit]
    have htext : ['P', 'T'] ++
        (if 0 < t / 3600 then decimal (t / 3600) ++ ['H'] else []) ++
        (if 0 < t / 60 % 60 then decimal (t / 60 % 60) ++ ['M'] else []) ++
        (if 0 < t % 60 then decimal (t % 60) ++ ['S'] else []) =
        FullForm.text ⟨none, none, none,
          some ⟨if 0 < t / 3600 then some (decimal (t / 3600)) else none,
            if 0 < t / 60 % 60 then some (decimal (t / 60 % 60)) else none,
            if 0 < t % 60 then some (decimal (t % 60)) else none⟩⟩ := by
      simp only [FullForm.text, timeText, TimeForm.text, partText_optDecimal]
      simp [partText]
    rw [htext, ParseDuration_fullForm]
    · unfold fullFormResult fieldsResult
      simp only [FullForm.hour, FullForm.minute, FullForm.second, Option.bind]
      rw [fieldValue_optDecimal _ (by omega), fieldValue_optDecimal _ (by omega),
        fieldValue_optDecimal _ (by omega)]
      simp only [fieldValue, ne_eq, not_true_eq_false, if_false]
      have ht : Duration.total ⟨0, 0, 0, 0, ((t / 3600 : Nat) : Int), ((t / 60 % 60 : Nat) : Int),
          ((t % 60 : Nat) : Int)⟩ = (t : Int) * Second := by
        simp only [Duration.total, Second]
        omega
      rw [ht, wrap64_of_range]
      · simp only [Second]; omega
      · simp only [maxDuration] at hfit; omega
    · exact ⟨rfl, rfl, rfl, runOk_optDecimal _, runOk_optDecimal _, runOk_optDecimal _⟩

/-- Witness of C6: one hour, one minute and one second. -/
theorem ParseDuration_FormatDuration_witness :
    ((3661 : Nat) : Int) * Second ≤ maxDuration ∧
    ParseDuration (FormatDuration (((3661 : Nat) : Int) * Second)) =
      ⟨3661 * Second, some ⟨0, 0, 0, 0, 1, 1, 1⟩, none⟩ :=
  ⟨by decide, ParseDuration_FormatDuration 3661 (by decide)⟩

/-! ## The three float methods on arbitrary durations -/

/-- The float computation `float64(hi) + float64(lo)/c` stays in `[hi, hi + 1]`
whenever `lo ≤ c`. -/
theorem float_split_le (hi lo c : Nat) (hc : 0 < c) (hc53 : c < 2 ^ 53) (hlo : lo ≤ c)
    (hhi : hi + 1 < 2 ^ 53) :
    (hi : ℚ) ≤ rnd64 (rnd64 (hi : ℚ) + rnd64 (rnd64 (lo : ℚ) / rnd64 (c : ℚ))) ∧
    rnd64 (rnd64 (hi : ℚ) + rnd64 (rnd64 (lo : ℚ) / rnd64 (c : ℚ))) ≤ (hi : ℚ) + 1 := by
  rw [rnd64_natCast hi (by omega), rnd64_natCast lo (by omega), rnd64_natCast c hc53]
  have hcq : (0 : ℚ) < (c : ℚ) := by exact_mod_cast hc
  have e0 : pow2 0 = 1 := by simp [pow2]
  have hq1 : (lo : ℚ) / (c : ℚ) ≤ 1 := by
    rw [div_le_one hcq]; exact_mod_cast hlo
  have hf0 : 0 ≤ rnd64 ((lo : ℚ) / (c : ℚ)) := rnd64_nonneg _ (by positivity)
  have hf1 : rnd64 ((lo : ℚ) / (c : ℚ)) ≤ 1 := by
    rcases Nat.eq_zero_or_pos lo with h | h
    · subst h
      simp only [Nat.cast_zero, zero_div, rnd64_zero]
      norm_num
    · have hq : (0 : ℚ) < (lo : ℚ) / (c : ℚ) := div_pos (by exact_mod_cast h) hcq
      have := rnd64_le _ hq 1 0 (by decide) (by decide) (by rw [e0]; simpa using hq1)
      rw [e0] at this
      simpa using this
  set fr := rnd64 ((lo : ℚ) / (c : ℚ)) with hfr
  have hnn : (0 : ℚ) ≤ (hi : ℚ) := Nat.cast_nonneg _
  rcases eq_or_lt_of_le (add_nonneg hnn hf0) with h | h
  · rw [← h, rnd64_zero]
    constructor <;> linarith
  · constructor
    · have := rnd64_ge _ h hi 0 (by omega) (by decide) (by rw [e0, mul_one]; linarith)
      rwa [e0, mul_one] at this
    · have := rnd64_le _ h (hi + 1) 0 hhi (by decide)
        (by rw [e0, mul_one]; push_cast; linarith)
      rw [e0, mul_one] at this
      push_cast at this
      exact this

theorem toInt_bounds (x : ℚ) (n : Nat) (h1 : (n : ℚ) ≤ x) (h2 : x ≤ (n : ℚ) + 1) :
    (n : Int) ≤ toInt x ∧ toInt x ≤ (n : Int) + 1 := by
  have h0 : (0 : ℚ) ≤ x := le_trans (Nat.cast_nonneg n) h1
  unfold toInt
  rw [if_pos h0]
  constructor
  · exact Int.le_floor.2 (by exact_mod_cast h1)
  · have : ((⌊x⌋ : Int) : ℚ) ≤ (((n : Int) + 1 : Int) : ℚ) := by
      push_cast
      exact le_trans (Int.floor_le x) h2
    exact_mod_cast this

theorem Hours_bounds (n : Nat) (hn : (n : Int) ≤ maxDuration) :
    ((n / 3600000000000 : Nat) : Int) ≤ toInt (time.Duration.Hours (n : Int)) ∧
    toInt (time.Duration.Hours (n : Int)) ≤ ((n / 3600000000000 : Nat) : Int) + 1 := by
  simp only [maxDuration] at hn
  have e1 : Int.tdiv (n : Int) Hour = ((n / 3600000000000 : Nat) : Int) := by
    rw [Int.tdiv_eq_ediv (by omega) (by decide)]
    simp only [Hour, Minute, Second]; omega
  have e2 : Int.tmod (n : Int) Hour = ((n % 3600000000000 : Nat) : Int) := by
    rw [Int.tmod_eq_emod (by omega) (by decide)]
    simp only [Hour, Minute, Second]; omega
  have c : (60 * 60 * 1000000000 : ℚ) = ((3600000000000 : Nat) : ℚ) := by norm_num
  unfold time.Duration.Hours
  simp only [e1, e2, Int.cast_natCast, c]
  have hm : n % 3600000000000 < 3600000000000 := Nat.mod_lt _ (by decide)
  obtain ⟨a, b⟩ := float_split_le (n / 3600000000000) (n % 3600000000000) 3600000000000
    (by decide) (by decide) (by omega) (by omega)
  exact toInt_bounds _ _ a b

theorem Minutes_bounds (n : Nat) (hn : (n : Int) ≤ maxDuration) :
    ((n / 60000000000 : Nat) : Int) ≤ toInt (time.Duration.Minutes (n : Int)) ∧
    toInt (time.Duration.Minutes (n : Int)) ≤ ((n / 60000000000 : Nat) : Int) + 1 := by
  simp only [maxDuration] at hn
  have e1 : Int.tdiv (n : Int) Minute = ((n / 60000000000 : Nat) : Int) := by
    rw [Int.tdiv_eq_ediv (by omega) (by decide)]
    simp only [Minute, Second]; omega
  have e2 : Int.tmod (n : Int) Minute = ((n % 60000000000 : Nat) : Int) := by
    rw [Int.tmod_eq_emod (by omega) (by decide)]
    simp only [Minute, Second]; omega
  have c : (60 * 1000000000 : ℚ) = ((60000000000 : Nat) : ℚ) := by norm_num
  unfold time.Duration.Minutes
  simp only [e1, e2, Int.cast_natCast, c]
  have hm : n % 60000000000 < 60000000000 := Nat.mod_lt _ (by decide)
  obtain ⟨a, b⟩ := float_split_le (n / 60000000000) (n % 60000000000) 60000000000
    (by decide) (by decide) (by omega) (by omega)
  exact toInt_bounds _ _ a b

theorem Seconds_bounds (n : Nat) (hn : (n : Int) ≤ maxDuration) :
    ((n / 1000000000 : Nat) : Int) ≤ toInt (time.Duration.Seconds (n : Int)) ∧
    toInt (time.Duration.Seconds (n : Int)) ≤ ((n / 1000000000 : Nat) : Int) + 1 := by
  simp only [maxDuration] at hn
  have e1 : Int.tdiv (n : Int) Second = ((n / 1000000000 : Nat) : Int) := by
    rw [Int.tdiv_eq_ediv (by omega) (by decide)]
    simp only [Second]; omega
  have e2 : Int.tmod (n : Int) Second = ((n % 1000000000 : Nat) : Int) := by
    rw [Int.tmod_eq_emod (by omega) (by decide)]
    simp only [Second]; omega
  have c : (1000000000 : ℚ) = ((1000000000 : Nat) : ℚ) := by norm_num
  unfold time.Duration.Seconds
  simp only [e1, e2, Int.cast_natCast]
  rw [c]
  have hm : n % 1000000000 < 1000000000 := Nat.mod_lt _ (by decide)
  obtain ⟨a, b⟩ := float_split_le (n / 1000000000) (n % 1000000000) 1000000000
    (by decide) (by decide) (by omega) (by omega)
  exact toInt_bounds _ _ a b

/-! ## Durations below one second -/

theorem Seconds_subsecond (n : Nat) (h0 : 0 < n) (h1 : n < 1000000000) :
    0 < time.Duration.Seconds (n : Int) ∧ toInt (time.Duration.Seconds (n : Int)) = 0 := by
  have e1 : Int.tdiv (n : Int) Second = ((0 : Nat) : Int) := by
    rw [Int.tdiv_eq_ediv (by omega) (by decide)]
    simp only [Second]; omega
  have e2 : Int.tmod (n : Int) Second = (n : Int) := by
    rw [Int.tmod_eq_emod (by omega) (by decide)]
    simp only [Second]; omega
  have c : (1000000000 : ℚ) = ((1000000000 : Nat) : ℚ) := by norm_num
  obtain ⟨a, b⟩ := float_split 0 n 1000000000 30
    (by decide) (by decide) (by omega) (by decide) (by omega)
  have hz := toInt_of_mem _ 0 a b
  rw [rnd64_natCast 0 (by decide), rnd64_natCast n (by omega),
    rnd64_natCast 1000000000 (by decide)] at hz a
  have hp30 : pow2 (-((30 : Nat) : Int)) = 1 / ((2 ^ 30 : Nat) : ℚ) := pow2_neg_natCast 30
  have hq : ((1 : Nat) : ℚ) * pow2 (-((30 : Nat) : Int)) ≤ (n : ℚ) / ((1000000000 : Nat) : ℚ) := by
    rw [hp30, Nat.cast_one, one_mul, div_le_div_iff₀ (by positivity) (by positivity)]
    have : (1000000000 : Nat) ≤ n * 2 ^ 30 := by omega
    exact_mod_cast this
  have hqpos : (0 : ℚ) < (n : ℚ) / ((1000000000 : Nat) : ℚ) :=
    div_pos (by exact_mod_cast h0) (by norm_num)
  have hfr := rnd64_ge _ hqpos 1 (-((30 : Nat) : Int)) (by decide) (by decide) hq
  have hppos := pow2_pos (-((30 : Nat) : Int))
  have hsum : ((1 : Nat) : ℚ) * pow2 (-((30 : Nat) : Int)) ≤
      ((0 : Nat) : ℚ) + rnd64 ((n : ℚ) / ((1000000000 : Nat) : ℚ)) := by
    simpa using hfr
  have hF := rnd64_ge _ (lt_of_lt_of_le (by simpa using hppos) hsum) 1 (-((30 : Nat) : Int))
    (by decide) (by decide) hsum
  unfold time.Duration.Seconds
  simp only [e1, e2, Int.cast_natCast]
  rw [c, rnd64_natCast 0 (by decide), rnd64_natCast n (by omega),
    rnd64_natCast 1000000000 (by decide)]
  refine ⟨lt_of_lt_of_le ?_ hF, hz⟩
  simpa using hppos

theorem Minutes_subsecond (n : Nat) (h1 : n < 1000000000) :
    toInt (time.Duration.Minutes (n : Int)) = 0 := by
  have e1 : Int.tdiv (n : Int) Minute = ((0 : Nat) : Int) := by
    rw [Int.tdiv_eq_ediv (by omega) (by decide)]
    simp only [Minute, Second]; omega
  have e2 : Int.tmod (n : Int) Minute = (n : Int) := by
    rw [Int.tmod_eq_emod (by omega) (by decide)]
    simp only [Minute, Second]; omega
  have c : (60 * 1000000000 : ℚ) = ((60000000000 : Nat) : ℚ) := by norm_num
  obtain ⟨a, b⟩ := float_split 0 n 60000000000 1
    (by decide) (by decide) (by omega) (by decide) (by omega)
  unfold time.Duration.Minutes
  simp only [e1, e2, Int.cast_natCast, c]
  exact toInt_of_mem _ 0 a b

theorem Hours_subsecond (n : Nat) (h1 : n < 1000000000) :
    toInt (time.Duration.Hours (n : Int)) = 0 := by
  have e1 : Int.tdiv (n : Int) Hour = ((0 : Nat) : Int) := by
    rw [Int.tdiv_eq_ediv (by omega) (by decide)]
    simp only [Hour, Minute, Second]; omega
  have e2 : Int.tmod (n : Int) Hour = (n : Int) := by
    rw [Int.tmod_eq_emod (by omega) (by decide)]
    simp only [Hour, Minute, Second]; omega
  have c : (60 * 60 * 1000000000 : ℚ) = ((3600000000000 : Nat) : ℚ) := by norm_num
  obtain ⟨a, b⟩ := float_split 0 n 3600000000000 1
    (by decide) (by decide) (by omega) (by decide) (by omega)
  unfold time.Duration.Hours
  simp only [e1, e2, Int.cast_natCast, c]
  exact toInt_of_mem _ 0 a b

/-- C11: for every elapsed time `d` with `0 < d < 1 second`, the hours, minutes
and seconds that `FormatDuration` computes are all truncated to zero and it
returns exactly the string `PT`, with no component; it does not return
`PT0S`. -/
theorem FormatDuration_subsecond (d : Int) (h0 : 0 < d) (h1 : d < Second) :
    FormatDuration d = "PT" ∧ FormatDuration d ≠ "PT0S" ∧
    toInt (time.Duration.Hours d) = 0 ∧ toInt (time.Duration.Minutes d) = 0 ∧
    toInt (time.Duration.Seconds d) = 0 := by
  obtain ⟨n, rfl⟩ : ∃ n : Nat, d = (n : Int) := ⟨d.toNat, by omega⟩
  simp only [Second] at h1
  have hn0 : 0 < n := by omega
  have hn1 : n < 1000000000 := by omega
  obtain ⟨hs, hsz⟩ := Seconds_subsecond n hn0 hn1
  have hmz := Minutes_subsecond n hn1
  have hhz := Hours_subsecond n hn1
  have hfmt : FormatDuration (n : Int) = "PT" := by
    unfold FormatDuration
    rw [if_neg (not_le.2 hs)]
    simp [hsz, hmz, hhz]
  refine ⟨hfmt, ?_, hhz, hmz, hsz⟩
  rw [hfmt]
  decide

/-- Witness of C11: half a second. -/
theorem FormatDuration_subsecond_witness :
    (0 : Int) < 500000000 ∧ (500000000 : Int) < Second ∧ FormatDuration 500000000 = "PT" :=
  ⟨by decide, by decide, (FormatDuration_subsecond 500000000 (by decide) (by decide)).1⟩

/-! ## Durations with a sub-second part -/

/-- C12, evaluated at an input where it fails: for `4097 h - 1 ns` (at least one
second, within the `int64` range) the float value of `Hours()` rounds up to
4097 while `Minutes()` truncates to `4097*60 - 1`, so `minutes` is `-1` and is
not printed; `FormatDuration` returns `PT4097H59S`, whereas on the same
duration rounded down to whole seconds it returns `PT4096H59M59S`. -/
theorem FormatDuration_truncation_failure :
    Second ≤ 14749199999999999 ∧ (14749199999999999 : Int) ≤ maxDuration ∧
    (14749199999999999 : Int) / Second * Second = 14749199000000000 ∧
    FormatDuration 14749199999999999 = "PT4097H59S" ∧
    FormatDuration 14749199000000000 = "PT4096H59M59S" ∧
    toInt (time.Duration.Hours 14749199999999999) = 4097 ∧
    toInt (time.Duration.Minutes 14749199999999999) -
      toInt (time.Duration.Hours 14749199999999999) * 60 = -1 := by
  decide!

/-! ## Conversion errors and the format error -/

theorem fieldValue_cases (o : Option (List Char)) :
    (runVal o ≤ maxInt ∧ fieldValue o = .ok (runVal o : Int)) ∨
    (∃ ds, o = some ds ∧ maxInt < digitsVal ds ∧ maxInt < runVal o ∧
      fieldValue o = .error (.ErrRange ds)) := by
  by_cases h : runVal o ≤ maxInt
  · exact Or.inl ⟨h, fieldValue_ok o h⟩
  · right
    cases o with
    | none => exact absurd (Nat.zero_le _) h
    | some ds =>
      have h' : ¬ digitsVal ds ≤ maxInt := h
      exact ⟨ds, rfl, by omega, by omega, by simp [fieldValue, h']⟩

theorem fieldValue_error (o : Option (List Char)) (e : Error) (h : fieldValue o = .error e) :
    ∃ ds, e = .ErrRange ds := by
  rcases fieldValue_cases o with ⟨_, h1⟩ | ⟨ds, _, _, _, h1⟩
  · rw [h1] at h; exact absurd h (by simp)
  · rw [h1] at h
    simp only [Except.error.injEq] at h
    exact ⟨ds, h.symm⟩

theorem fieldsResult_err_ne (oy omo od oh omi os : Option (List Char)) :
    (fieldsResult oy omo od oh omi os).err ≠ some .ErrBadFormat := by
  unfold fieldsResult
  cases hy : fieldValue oy with
  | error e => obtain ⟨ds, rfl⟩ := fieldValue_error _ _ hy; simp [failWith]
  | ok y =>
    cases hmo : fieldValue omo with
    | error e => obtain ⟨ds, rfl⟩ := fieldValue_error _ _ hmo; simp [failWith]
    | ok mo =>
      by_cases hmz : mo = 0
      · subst hmz
        cases hd : fieldValue od with
        | error e => obtain ⟨ds, rfl⟩ := fieldValue_error _ _ hd; simp [failWith]
        | ok d =>
          cases hh : fieldValue oh with
          | error e => obtain ⟨ds, rfl⟩ := fieldValue_error _ _ hh; simp [failWith]
          | ok h =>
            cases hmi : fieldValue omi with
            | error e => obtain ⟨ds, rfl⟩ := fieldValue_error _ _ hmi; simp [failWith]
            | ok mi =>
              cases hs : fieldValue os with
              | error e => obtain ⟨ds, rfl⟩ := fieldValue_error _ _ hs; simp [failWith]
              | ok sec => simp
      · simp [hmz, failWith]

theorem weekResult_err_ne (n : List Char) : (weekResult n).err ≠ some .ErrBadFormat := by
  unfold weekResult
  cases h : fieldValue (some n) with
  | error e => obtain ⟨ds, rfl⟩ := fieldValue_error _ _ h; simp [failWith]
  | ok w => simp

theorem week_find_weekText (n : List Char) (hn : isDigitRun n = true) :
    week.FindStringSubmatch (weekText n) = some ['P' :: (n ++ ['W']), n ++ ['W'], n] := by
  have := digitsThen_hit 'W' n [] hn (by decide)
  simp [weekText, week.FindStringSubmatch, weekHere, this]

/-- C13: numeric conversion failures are surfaced.  For every input of the full
form in which a digit run denotes a value above the largest `int` and no
non-zero month part precedes that run in the order Y, M, D, H, M, S, and for
every input of the week form whose digit run is above the largest `int`,
`ParseDuration` fails with the out-of-range conversion error, which is neither
`ErrBadFormat` nor `ErrNoMonth`, and returns elapsed time 0 and no record. -/
theorem ParseDuration_out_of_range (f : FullForm) (hwf : f.WellFormed)
    (hbig : maxInt < runVal f.year ∨ maxInt < runVal f.month ∨
      (runVal f.month = 0 ∧ (maxInt < runVal f.day ∨ maxInt < runVal f.hour ∨
        maxInt < runVal f.minute ∨ maxInt < runVal f.second)))
    (n : List Char) (hn : isDigitRun n = true) (hnbig : maxInt < digitsVal n) :
    (∃ ds, maxInt < digitsVal ds ∧
      ParseDuration (String.mk f.text) = ⟨0, none, some (.ErrRange ds)⟩) ∧
    ParseDuration (String.mk (weekText n)) = ⟨0, none, some (.ErrRange n)⟩ ∧
    (∀ ds, Error.ErrRange ds ≠ .ErrBadFormat ∧ Error.ErrRange ds ≠ .ErrNoMonth) := by
  refine ⟨?_, ?_, fun ds => ⟨by simp, by simp⟩⟩
  · rw [ParseDuration_fullForm f hwf]
    unfold fullFormResult fieldsResult
    rcases fieldValue_cases f.year with ⟨by1, hy⟩ | ⟨ds, _, hds, _, hy⟩
    · rcases fieldValue_cases f.month with ⟨bmo1, hmo⟩ | ⟨ds, _, hds, _, hmo⟩
      · by_cases hmz : runVal f.month = 0
        · rcases fieldValue_cases f.day with ⟨bd1, hd⟩ | ⟨ds, _, hds, _, hd⟩
          · rcases fieldValue_cases f.hour with ⟨bh1, hh⟩ | ⟨ds, _, hds, _, hh⟩
            · rcases fieldValue_cases f.minute with ⟨bmi1, hmi⟩ | ⟨ds, _, hds, _, hmi⟩
              · rcases fieldValue_cases f.second with ⟨bs1, hs⟩ | ⟨ds, _, hds, _, hs⟩
                · exfalso; omega
                · exact ⟨ds, hds, by simp [hy, hmo, hmz, hd, hh, hmi, hs, failWith]⟩
              · exact ⟨ds, hds, by simp [hy, hmo, hmz, hd, hh, hmi, failWith]⟩
            · exact ⟨ds, hds, by simp [hy, hmo, hmz, hd, hh, failWith]⟩
          · exact ⟨ds, hds, by simp [hy, hmo, hmz, hd, failWith]⟩
        · exfalso; omega
      · exact ⟨ds, hds, by simp [hy, hmo, failWith]⟩
    · exact ⟨ds, hds, by simp [hy, failWith]⟩
  · simp only [ParseDuration, week.MatchString, week_find_weekText n hn, Option.isSome_some,
      if_true]
    rw [parseLoop_week_names _ _ _ hn]
    have h' : ¬ digitsVal n ≤ maxInt := by omega
    simp [weekResult, fieldValue, h', failWith]

/-- Witness of C13: the inputs `P99999999999999999999Y` and
`P99999999999999999999W`. -/
theorem ParseDuration_out_of_range_witness :
    overflowForm.WellFormed ∧ maxInt < runVal overflowForm.year ∧
    isDigitRun "99999999999999999999".data = true ∧
    maxInt < digitsVal "99999999999999999999".data ∧
    (∃ ds, maxInt < digitsVal ds ∧
      ParseDuration "P99999999999999999999Y" = ⟨0, none, some (.ErrRange ds)⟩) ∧
    ParseDuration "P99999999999999999999W" =
      ⟨0, none, some (.ErrRange "99999999999999999999".data)⟩ :=
  ⟨by decide, by decide, by decide, by decide,
    (ParseDuration_out_of_range overflowForm (by decide) (Or.inl (by decide))
      "99999999999999999999".data (by decide) (by decide)).1,
    (ParseDuration_out_of_range overflowForm (by decide) (Or.inl (by decide))
      "99999999999999999999".data (by decide) (by decide)).2.1⟩

/-- C14: exact characterisation of `ErrBadFormat`.  For every input string,
`ParseDuration` fails with `ErrBadFormat` if and only if the string contains no
character `P` anywhere; a string containing a `P`, at any position and with any
surrounding text, is matched by one of the two unanchored patterns. -/
theorem ParseDuration_bad_format_iff (value : String) :
    ((ParseDuration value).err = some .ErrBadFormat ↔ 'P' ∉ value.data) ∧
    ((week.MatchString value.data || full.MatchString value.data) = true ↔
      'P' ∈ value.data) := by
  constructor
  · rcases ParseDuration_cases value with ⟨h0, h1⟩ | ⟨pre, n, post, hn, hv, h1⟩ |
        ⟨h0, oy, omo, od, oh, omi, os, _, _, _, _, _, _, h1⟩
    · rw [h1]; simp [failWith, h0]
    · have hP : 'P' ∈ value.data := by rw [hv]; simp [weekText]
      rw [h1]
      constructor
      · intro h; exact absurd h (weekResult_err_ne n)
      · intro h; exact absurd hP h
    · rw [h1]
      constructor
      · intro h; exact absurd h (fieldsResult_err_ne _ _ _ _ _ _)
      · intro h; exact absurd h0 h
  · rcases full_find_cases value.data with ⟨h0, h2⟩ | ⟨h0, s, h2⟩
    · simp [week.MatchString, full.MatchString, week_find_none_of_no_P _ h0, h2, h0]
    · simp [full.MatchString, h2, h0]

/-! ## The formatter's output is always parseable -/

theorem runOk_optFmt (v : Int) :
    runOk (if 0 < v then some (decimal v.natAbs) else none) = true := by
  split
  · exact (decimal_spec _).1
  · rfl

theorem runVal_optFmt (v : Int) (hv : v ≤ (maxInt : Int)) :
    runVal (if 0 < v then some (decimal v.natAbs) else none) ≤ maxInt := by
  split
  · simp only [runVal, runText, Option.getD_some, (decimal_spec _).2]
    omega
  · exact Nat.zero_le _

theorem component_optFmt (s : List Char) (v : Int) (c : Char) :
    (if v > 0 then s ++ fmtInt v ++ [c] else s) =
      s ++ partText (if 0 < v then some (decimal v.natAbs) else none) c := by
  by_cases h : 0 < v
  · have h' : ¬ v < 0 := by omega
    simp [h, fmtInt, h', partText]
  · simp [h, partText]

/-- The output of the formatter, for every duration of the `int64` range, is the
text of a full form that consists of a `T` section only, with digit runs that
fit the `int` type. -/
theorem FormatDuration_form (d : Int) (hd : d ≤ maxDuration) :
    ∃ oh om os : Option (List Char),
      runOk oh = true ∧ runOk om = true ∧ runOk os = true ∧
      runVal oh ≤ maxInt ∧ runVal om ≤ maxInt ∧ runVal os ≤ maxInt ∧
      FormatDuration d = String.mk (FullForm.text ⟨none, none, none, some ⟨oh, om, os⟩⟩) := by
  by_cases hs : time.Duration.Seconds d ≤ 0
  · refine ⟨none, none, some ['0'], rfl, rfl, rfl, by decide, by decide, by decide, ?_⟩
    unfold FormatDuration
    rw [if_pos hs]
    rfl
  · have hpos : 0 < d := by
      by_contra hneg
      exact hs (Seconds_nonpos d (by omega))
    obtain ⟨n, rfl⟩ : ∃ n : Nat, d = (n : Int) := ⟨d.toNat, by omega⟩
    obtain ⟨hH0, hH1⟩ := Hours_bounds n hd
    obtain ⟨hM0, hM1⟩ := Minutes_bounds n hd
    obtain ⟨hS0, hS1⟩ := Seconds_bounds n hd
    have hmax : (maxInt : Int) = 9223372036854775807 := by decide
    simp only [maxDuration] at hd
    have bH : toInt (time.Duration.Hours (n : Int)) ≤ (maxInt : Int) := by omega
    have bM : toInt (time.Duration.Minutes (n : Int)) -
        toInt (time.Duration.Hours (n : Int)) * 60 ≤ (maxInt : Int) := by omega
    have bS : toInt (time.Duration.Seconds (n : Int)) -
        (toInt (time.Duration.Hours (n : Int)) * 3600 +
          (toInt (time.Duration.Minutes (n : Int)) -
            toInt (time.Duration.Hours (n : Int)) * 60) * 60) ≤ (maxInt : Int) := by omega
    refine ⟨_, _, _, runOk_optFmt _, runOk_optFmt _, runOk_optFmt _, runVal_optFmt _ bH,
      runVal_optFmt _ bM, runVal_optFmt _ bS, ?_⟩
    unfold FormatDuration
    rw [if_neg hs]
    simp only [component_optFmt]
    simp [FullForm.text, timeText, TimeForm.text, partText]

/-- C15: the output of the formatter is always parseable.  For every elapsed
time `d` of the `int64` range (negative, zero, below one second or positive),
`ParseDuration(FormatDuration(d))` returns a nil error and a record whose
`Years`, `Months`, `Weeks` and `Days` are all 0; the minutes component written
after `PT` is never read as a month and the error is never `ErrNoMonth`. -/
theorem ParseDuration_FormatDuration_ok (d : Int) (hd : d ≤ maxDuration) :
    (ParseDuration (FormatDuration d)).err = none ∧
    (ParseDuration (FormatDuration d)).err ≠ some .ErrNoMonth ∧
    ∃ r, (ParseDuration (FormatDuration d)).record = some r ∧
      r.Years = 0 ∧ r.Months = 0 ∧ r.Weeks = 0 ∧ r.Days = 0 := by
  obtain ⟨oh, om, os, wh, wm, ws, bh, bm, bs, hfmt⟩ := FormatDuration_form d hd
  have hwf : FullForm.WellFormed ⟨none, none, none, some ⟨oh, om, os⟩⟩ :=
    ⟨rfl, rfl, rfl, wh, wm, ws⟩
  rw [hfmt, ParseDuration_fullForm _ hwf]
  unfold fullFormResult fieldsResult
  simp only [FullForm.hour, FullForm.minute, FullForm.second, Option.bind]
  rw [fieldValue_ok oh bh, fieldValue_ok om bm, fieldValue_ok os bs]
  simp [fieldValue]

/-- Witness of C15: a negative duration, half a second, ninety seconds and the
duration `4097 h - 1 ns`. -/
theorem ParseDuration_FormatDuration_ok_witness :
    (14749199999999999 : Int) ≤ maxDuration ∧
    (ParseDuration (FormatDuration 14749199999999999)).err = none ∧
    (ParseDuration (FormatDuration (-7))).err = none ∧
    (ParseDuration (FormatDuration 500000000)).err = none ∧
    (ParseDuration (FormatDuration 90000000000)).err = none :=
  ⟨by decide, (ParseDuration_FormatDuration_ok 14749199999999999 (by decide)).1,
    (ParseDuration_FormatDuration_ok (-7) (by decide)).1,
    (ParseDuration_FormatDuration_ok 500000000 (by decide)).1,
    (ParseDuration_FormatDuration_ok 90000000000 (by decide)).1⟩

end Iso8601
